import Mathlib

/-!
Verification of the persistent audit event store of `c2.pas.aal2`
(`src/c2/pas/aal2/storage/audit.py` and `src/c2/pas/aal2/storage/query.py`).

Embedding conventions:
* A ZODB `OOBTree`/`IOBTree` is embedded as an association list sorted
  strictly by key (`alInsert`, `alErase`, `alLookup`); `keys(min, max)`
  iteration corresponds to an order-preserving `filter` over the list.
  The string-keyed outer level of the secondary indexes is embedded as an
  association list with distinct keys (`alSet`); its iteration order is
  never observed by the code under verification.
* Python float timestamps are embedded as exact rationals (`ℚ`).
  `datetime` instants carry microsecond resolution, expressed by the
  predicate `isMicro` (the key times 1,000,000 is an integer).
  Binary floating-point rounding is outside the scope of this embedding.
* Python `int(x)` on a number is truncation toward zero (`pyInt`).
* `uuid.uuid4()` and `datetime.now(pytz.UTC)` are ambient effects; the
  embedded constructors take the fresh id and the current instant as
  explicit arguments.
-/

/-! ## Association lists standing for BTrees -/

/-- Key lookup in an association list (first match), embedding `tree[k]`
and `k in tree`. -/
def alLookup {κ : Type*} {α : Type*} [DecidableEq κ] : List (κ × α) → κ → Option α
  | [], _ => none
  | p :: t, k => if p.1 = k then some p.2 else alLookup t k

/-- Ordered insertion, embedding `tree[k] = v` on a sorted BTree:
an existing entry with the same key is overwritten. -/
def alInsert {κ : Type*} {α : Type*} [LinearOrder κ] : List (κ × α) → κ → α → List (κ × α)
  | [], k, v => [(k, v)]
  | p :: t, k, v =>
    if k < p.1 then (k, v) :: p :: t
    else if k = p.1 then (k, v) :: t
    else p :: alInsert t k v

/-- Deletion of the entry with the given key (first match), embedding
`del tree[k]` (callers guard membership). -/
def alErase {κ : Type*} {α : Type*} [DecidableEq κ] : List (κ × α) → κ → List (κ × α)
  | [], _ => []
  | p :: t, k => if p.1 = k then t else p :: alErase t k

/-- Update-or-append for the string-keyed outer level of a secondary
index, embedding `index[v] = bucket`. -/
def alSet {κ : Type*} {α : Type*} [DecidableEq κ] : List (κ × α) → κ → α → List (κ × α)
  | [], k, v => [(k, v)]
  | p :: t, k, v => if p.1 = k then (k, v) :: t else p :: alSet t k v

/-- The key list of an association list. -/
def keysOf {κ : Type*} {α : Type*} (l : List (κ × α)) : List κ := l.map Prod.fst

/-- The list is strictly sorted by key (the BTree representation invariant). -/
def AlSorted {κ : Type*} {α : Type*} [LinearOrder κ] (l : List (κ × α)) : Prop :=
  List.Pairwise (fun p q => p.1 < q.1) l

/-! ## The audit event model (`storage/audit.py`) -/

/-- The fixed vocabulary of recognized action kinds (`AUDIT_ACTION_TYPES`). -/
def AUDIT_ACTION_TYPES : List String :=
  ["registration_start", "registration_success", "registration_failure",
   "authentication_start", "authentication_success", "authentication_failure",
   "credential_deleted", "credential_updated",
   "aal2_timestamp_set", "aal2_access_granted", "aal2_access_denied",
   "aal2_policy_set",
   "aal2_role_assigned", "aal2_role_revoked"]

/-- Python `x or default` on an optional string: `None` and the empty string
are falsy and give the default. -/
def pyOr (o : Option String) (d : String) : String :=
  match o with
  | none => d
  | some s => if s = "" then d else s

/-- One audit event (`AuditEvent`), after successful construction. -/
structure AuditEvent where
  event_id : String
  timestamp : ℚ
  user_id : String
  action_type : String
  outcome : String
  ip_address : String
  user_agent : String
  metadata : List (String × String)
deriving DecidableEq

/-- The JSON-serializable rendering produced by `AuditEvent.to_dict`.
The ISO-8601 timestamp string is kept as the exact instant it denotes
(`isoformat` is injective on microsecond-precision UTC instants). -/
structure EventDict where
  event_id : String
  timestamp : ℚ
  user_id : String
  action_type : String
  outcome : String
  ip_address : String
  user_agent : String
  metadata : List (String × String)
deriving DecidableEq

/-- `AuditEvent.to_dict`. -/
def AuditEvent.to_dict (e : AuditEvent) : EventDict :=
  { event_id := e.event_id, timestamp := e.timestamp, user_id := e.user_id,
    action_type := e.action_type, outcome := e.outcome,
    ip_address := e.ip_address, user_agent := e.user_agent,
    metadata := e.metadata }

/-- `AuditEvent.__init__`: validation then field initialization.  The fresh
`uuid4` id and the `datetime.now(pytz.UTC)` instant are passed in as
`fresh_id` and `now`; a `ValueError` is the `Except.error` case. -/
def AuditEvent.make (fresh_id : String) (now : ℚ) (user_id : Option String)
    (action_type outcome : String) (ip_address user_agent : Option String)
    (metadata : Option (List (String × String))) : Except String AuditEvent :=
  if action_type ∉ AUDIT_ACTION_TYPES then
    Except.error ("Invalid action_type: " ++ action_type)
  else if ¬ (outcome = "success" ∨ outcome = "failure") then
    Except.error ("Invalid outcome: " ++ outcome)
  else
    Except.ok
      { event_id := fresh_id
        timestamp := now
        user_id := pyOr user_id "anonymous"
        action_type := action_type
        outcome := outcome
        ip_address := pyOr ip_address "unknown"
        user_agent := pyOr user_agent "unknown"
        metadata := metadata.getD [] }

/-! ## Keys: float seconds and integer microseconds -/

/-- The instant has microsecond resolution: its value times 1,000,000 is an
integer.  Every `datetime` timestamp satisfies this. -/
def isMicro (q : ℚ) : Prop := (q * 1000000).den = 1

instance (q : ℚ) : Decidable (isMicro q) := by
  rw [isMicro]
  infer_instance

/-- Python `int(x)`: truncation toward zero. -/
def pyInt (q : ℚ) : ℤ := q.num.tdiv q.den

/-- The scaled secondary-index key `int(timestamp_key * 1000000)`. -/
def scaled (q : ℚ) : ℤ := pyInt (q * 1000000)

/-- One step of the collision loop
`while timestamp_key in self.events: timestamp_key += 0.000001`,
with explicit fuel (the loop can collide at most once per stored key, so
`|events| + 1` steps always suffice; see `findFreeKeyGo_spec`). -/
def findFreeKeyGo (ks : List ℚ) : ℕ → ℚ → ℚ
  | 0, k => k
  | n + 1, k => if k ∈ ks then findFreeKeyGo ks n (k + 1 / 1000000) else k

/-- The unique primary key chosen by `add_event` for a candidate timestamp. -/
def findFreeKey (events : List (ℚ × AuditEvent)) (k : ℚ) : ℚ :=
  findFreeKeyGo (keysOf events) (events.length + 1) k

/-! ## The index container (`AuditLogContainer`) -/

/-- `AuditLogContainer` state.  `metadata['created']` and
`metadata['retention_days']` are never read by the verified operations and
are omitted; `total_events` and `last_cleaned` are kept. -/
structure AuditLogContainer where
  events : List (ℚ × AuditEvent)
  by_user : List (String × List (ℤ × String))
  by_action : List (String × List (ℤ × String))
  by_outcome : List (String × List (ℤ × String))
  total_events : ℤ
  last_cleaned : Option ℚ
deriving DecidableEq

/-- `AuditLogContainer.__init__`: empty stores, `total_events = 0`,
`last_cleaned = None`. -/
def AuditLogContainer.empty : AuditLogContainer :=
  { events := [], by_user := [], by_action := [], by_outcome := [],
    total_events := 0, last_cleaned := none }

/-- Secondary-index update in `add_event`: get-or-create the bucket for
value `v`, then assign `bucket[sk] = eid`. -/
def idxInsert (idx : List (String × List (ℤ × String))) (v : String) (sk : ℤ)
    (eid : String) : List (String × List (ℤ × String)) :=
  alSet idx v (alInsert ((alLookup idx v).getD []) sk eid)

/-- `AuditLogContainer.add_event`: pick a collision-free primary key, store
the event, insert `(scaled key, event_id)` in the three secondary indexes,
increment `total_events`, and return the event id. -/
def AuditLogContainer.add_event (c : AuditLogContainer) (e : AuditEvent) :
    AuditLogContainer × String :=
  let k := findFreeKey c.events e.timestamp
  let sk := scaled k
  ({ events := alInsert c.events k e
     by_user := idxInsert c.by_user e.user_id sk e.event_id
     by_action := idxInsert c.by_action e.action_type sk e.event_id
     by_outcome := idxInsert c.by_outcome e.outcome sk e.event_id
     total_events := c.total_events + 1
     last_cleaned := c.last_cleaned }, e.event_id)

/-- Inclusive range test on primary keys, embedding
`self.events.keys(min=start_key, max=end_key)` (`None` = unbounded). -/
def inRangeQ (s t : Option ℚ) (k : ℚ) : Bool :=
  (match s with
   | some a => decide (a ≤ k)
   | none => true) &&
  (match t with
   | some b => decide (k ≤ b)
   | none => true)

/-- Inclusive range test on scaled integer keys. -/
def inRangeZ (s t : Option ℤ) (n : ℤ) : Bool :=
  (match s with
   | some a => decide (a ≤ n)
   | none => true) &&
  (match t with
   | some b => decide (n ≤ b)
   | none => true)

/-- `AuditLogContainer.query_by_timestamp`: all events whose primary key
lies in the inclusive range, in ascending key order. -/
def AuditLogContainer.query_by_timestamp (c : AuditLogContainer)
    (start_time end_time : Option ℚ) : List AuditEvent :=
  (c.events.filter (fun p => inRangeQ start_time end_time p.1)).map Prod.snd

/-- Common body of `query_by_user`, `query_by_action` and
`query_by_outcome` (the three source functions are textually identical
except for the index they address): look up the bucket, iterate its keys in
the scaled range, divide each key by 1,000,000 and resolve it through the
primary store, skipping keys with no primary entry. -/
def queryIdx (idx : List (String × List (ℤ × String)))
    (events : List (ℚ × AuditEvent)) (v : String)
    (start_time end_time : Option ℚ) : List AuditEvent :=
  match alLookup idx v with
  | none => []
  | some bucket =>
    (bucket.filter (fun p =>
        inRangeZ (start_time.map (fun a => pyInt (a * 1000000)))
          (end_time.map (fun b => pyInt (b * 1000000))) p.1)).filterMap
      (fun p => alLookup events ((p.1 : ℚ) / 1000000))

/-- `AuditLogContainer.query_by_user`. -/
def AuditLogContainer.query_by_user (c : AuditLogContainer) (user_id : String)
    (start_time end_time : Option ℚ) : List AuditEvent :=
  queryIdx c.by_user c.events user_id start_time end_time

/-- `AuditLogContainer.query_by_action`. -/
def AuditLogContainer.query_by_action (c : AuditLogContainer) (action_type : String)
    (start_time end_time : Option ℚ) : List AuditEvent :=
  queryIdx c.by_action c.events action_type start_time end_time

/-- `AuditLogContainer.query_by_outcome`. -/
def AuditLogContainer.query_by_outcome (c : AuditLogContainer) (outcome : String)
    (start_time end_time : Option ℚ) : List AuditEvent :=
  queryIdx c.by_outcome c.events outcome start_time end_time

/-- Secondary-index removal in `cleanup_old_events`: if the bucket for `v`
exists and holds the scaled key, delete that entry, and delete the bucket
itself if it became empty. -/
def idxRemove (idx : List (String × List (ℤ × String))) (v : String) (sk : ℤ) :
    List (String × List (ℤ × String)) :=
  match alLookup idx v with
  | none => idx
  | some bucket =>
    if sk ∈ keysOf bucket then
      if (alErase bucket sk).isEmpty then alErase idx v
      else alSet idx v (alErase bucket sk)
    else idx

/-- One iteration of the deletion loop of `cleanup_old_events`, for a
collected `(timestamp_key, event)` pair. -/
def cleanupStep (st : AuditLogContainer) (p : ℚ × AuditEvent) : AuditLogContainer :=
  { st with
    events := alErase st.events p.1
    by_user := idxRemove st.by_user p.2.user_id (scaled p.1)
    by_action := idxRemove st.by_action p.2.action_type (scaled p.1)
    by_outcome := idxRemove st.by_outcome p.2.outcome (scaled p.1) }

/-- `AuditLogContainer.cleanup_old_events`: collect the primary entries with
key strictly below the cutoff key, delete each from the primary store and
the three indexes, decrement `total_events` by the number deleted, set
`last_cleaned` to the current instant, and return the count deleted. -/
def AuditLogContainer.cleanup_old_events (c : AuditLogContainer)
    (before_key now : ℚ) : AuditLogContainer × ℕ :=
  let toDelete := c.events.filter (fun p => decide (p.1 < before_key))
  let c' := toDelete.foldl cleanupStep c
  ({ c' with
     total_events := c.total_events - toDelete.length
     last_cleaned := some now }, toDelete.length)

/-! ## The query engine (`storage/query.py`) -/

/-- The filter dictionary accepted by `query_audit_logs`; `none` stands for
an absent key. -/
structure Filters where
  user_id : Option String
  action_type : Option String
  outcome : Option String
  start_time : Option ℚ
  end_time : Option ℚ
deriving DecidableEq

/-- The empty filter dictionary. -/
def Filters.noFilters : Filters :=
  { user_id := none, action_type := none, outcome := none,
    start_time := none, end_time := none }

/-- The result dictionary of `query_audit_logs`. -/
structure QueryResult where
  events : List EventDict
  total : ℕ
  offset : ℕ
  limit : Option ℕ
  has_more : Bool
deriving DecidableEq

/-- The dispatch of `query_audit_logs`: exactly one indexed lookup chosen by
the precedence `user_id`, then `action_type`, then `outcome`, then the
time-only scan. -/
def auditDispatch (c : AuditLogContainer) (f : Filters) : List AuditEvent :=
  match f.user_id with
  | some u => c.query_by_user u f.start_time f.end_time
  | none =>
    match f.action_type with
    | some a => c.query_by_action a f.start_time f.end_time
    | none =>
      match f.outcome with
      | some oc => c.query_by_outcome oc f.start_time f.end_time
      | none => c.query_by_timestamp f.start_time f.end_time

/-- The three in-memory multi-criteria filter passes of `query_audit_logs`,
applied in source order. -/
def auditMemFilters (f : Filters) (evs0 : List AuditEvent) : List AuditEvent :=
  let evs1 :=
    match f.user_id, f.action_type with
    | some _, some a => evs0.filter (fun e => decide (e.action_type = a))
    | _, _ => evs0
  let evs2 :=
    match f.user_id, f.outcome with
    | some _, some oc => evs1.filter (fun e => decide (e.outcome = oc))
    | _, _ => evs1
  match f.action_type, f.outcome with
  | some _, some oc => evs2.filter (fun e => decide (e.outcome = oc))
  | _, _ => evs2

/-- `events.sort(key=lambda e: e.timestamp, reverse=True)`: stable sort,
most recent first. -/
def sortDesc (evs : List AuditEvent) : List AuditEvent :=
  evs.mergeSort (fun a b => decide (b.timestamp ≤ a.timestamp))

/-- The fully filtered, sorted result list of `query_audit_logs`, before
pagination. -/
def auditQueryList (c : AuditLogContainer) (f : Filters) : List AuditEvent :=
  sortDesc (auditMemFilters f (auditDispatch c f))

/-- `query_audit_logs(filters, limit, offset)`.  `end_index =
offset + limit if limit else len(events)`: a `None` **or zero** limit
selects everything up to the end.  The page is the Python slice
`events[offset:end_index]`. -/
def query_audit_logs (c : AuditLogContainer) (f : Filters)
    (limit : Option ℕ) (offset : ℕ) : QueryResult :=
  let evs := auditQueryList c f
  let total := evs.length
  let end_index :=
    match limit with
    | some l => if l = 0 then evs.length else offset + l
    | none => evs.length
  let page := (evs.take end_index).drop offset
  { events := page.map AuditEvent.to_dict
    total := total
    offset := offset
    limit := limit
    has_more := decide (offset + page.length < total) }

/-! ## Stats (`get_audit_stats`) -/

/-- Round half to even (Python `round` on ties), at integer resolution. -/
def roundHalfEven (q : ℚ) : ℤ :=
  let f := ⌊q⌋
  let r := q - f
  if r < 1 / 2 then f
  else if 1 / 2 < r then f + 1
  else if Even f then f else f + 1

/-- Python `round(x, 2)`. -/
def pyRound2 (q : ℚ) : ℚ := (roundHalfEven (q * 100) : ℚ) / 100

/-- The outcome-derived fields of the `get_audit_stats` result dictionary
(the container pass-through fields and the 24-hour activity window are not
observed by any claim). -/
structure AuditStats where
  success_events : ℕ
  failure_events : ℕ
  success_rate : ℚ
deriving DecidableEq

/-- `get_audit_stats`: success/failure totals from the two outcome buckets;
`success_rate = success / (success + failure) * 100` when any outcome
exists, else `0`; reported rounded to two decimals. -/
def get_audit_stats (c : AuditLogContainer) : AuditStats :=
  let success_events := (c.query_by_outcome "success" none none).length
  let failure_events := (c.query_by_outcome "failure" none none).length
  let total_with_outcome := success_events + failure_events
  let success_rate : ℚ :=
    if 0 < total_with_outcome then
      (success_events : ℚ) / (total_with_outcome : ℚ) * 100
    else 0
  { success_events := success_events
    failure_events := failure_events
    success_rate := pyRound2 success_rate }

/-! ## The logging entry point (`log_audit_event`) -/

/-- `log_audit_event`: construct the event (validation may fail), then add
it to the container.  `storage_fails` models the ambient possibility that
the persistence layer raises while storing; the source catches
`ValueError` and any other `Exception` alike, logs, and returns `None`. -/
def log_audit_event (storage_fails : Bool) (c : AuditLogContainer)
    (fresh_id : String) (now : ℚ) (user_id : Option String)
    (action_type outcome : String) (ip_address user_agent : Option String)
    (metadata : Option (List (String × String))) :
    Option String × AuditLogContainer :=
  match AuditEvent.make fresh_id now user_id action_type outcome
      ip_address user_agent metadata with
  | Except.error _ => (none, c)
  | Except.ok e =>
    if storage_fails then (none, c)
    else
      let r := c.add_event e
      (some r.2, r.1)

/-! ## Operation sequences (for state invariants) -/

/-- An operation applied to the container over its lifetime: an
`add_event` (with the event's ambient construction data already resolved)
or a `cleanup_old_events`. -/
inductive AuditOp where
  | add (e : AuditEvent) : AuditOp
  | cleanup (before_key now : ℚ) : AuditOp

/-- Apply one operation. -/
def applyOp (c : AuditLogContainer) : AuditOp → AuditLogContainer
  | AuditOp.add e => (c.add_event e).1
  | AuditOp.cleanup b n => (c.cleanup_old_events b n).1

/-- Apply a sequence of operations to the freshly initialized container. -/
def applyOps (ops : List AuditOp) : AuditLogContainer :=
  ops.foldl applyOp AuditLogContainer.empty

/-! ## Well-formedness of the container -/

/-- The bucket the secondary index for dimension `proj` must hold for value
`v`: one entry `(scaled key, event_id)` per matching primary entry, in
primary-key order. -/
def bucketOf (events : List (ℚ × AuditEvent)) (proj : AuditEvent → String)
    (v : String) : List (ℤ × String) :=
  (events.filter (fun p => decide (proj p.2 = v))).map
    (fun p => (scaled p.1, p.2.event_id))

/-- A secondary index is consistent with the primary store: distinct bucket
keys, every bucket is exactly the derived bucket and nonempty, and every
stored event has its bucket present. -/
def WFIdx (idx : List (String × List (ℤ × String)))
    (events : List (ℚ × AuditEvent)) (proj : AuditEvent → String) : Prop :=
  (keysOf idx).Nodup ∧
  (∀ b ∈ idx, b.2 = bucketOf events proj b.1 ∧ b.2 ≠ []) ∧
  (∀ p ∈ events, proj p.2 ∈ keysOf idx)

/-- Reachable-state invariant of `AuditLogContainer`: sorted primary store
with microsecond-resolution keys, and three consistent secondary indexes. -/
def ContainerWF (c : AuditLogContainer) : Prop :=
  AlSorted c.events ∧
  (∀ p ∈ c.events, isMicro p.1) ∧
  WFIdx c.by_user c.events (fun e => e.user_id) ∧
  WFIdx c.by_action c.events (fun e => e.action_type) ∧
  WFIdx c.by_outcome c.events (fun e => e.outcome)

instance (l : List (ℚ × AuditEvent)) : Decidable (AlSorted l) := by
  rw [AlSorted]
  infer_instance

instance (idx : List (String × List (ℤ × String))) (events : List (ℚ × AuditEvent))
    (proj : AuditEvent → String) [DecidablePred (fun s => ∀ p ∈ events, proj p.2 = s)] :
    Decidable (WFIdx idx events proj) := by
  rw [WFIdx]
  infer_instance

instance (c : AuditLogContainer) : Decidable (ContainerWF c) := by
  rw [ContainerWF]
  infer_instance

/-- Microsecond resolution of an optional bound (`datetime` arguments). -/
def optMicro (o : Option ℚ) : Prop :=
  match o with
  | none => True
  | some q => isMicro q

instance (o : Option ℚ) : Decidable (optMicro o) := by
  cases o <;> {rw [optMicro]; infer_instance}

/-! ## Reference full scan (modelled from the spec) -/

/-- Modelled from the spec: the multi-criteria AND over one primary entry —
every present filter dimension must match, and the entry's key must lie in
the inclusive time range (the time dimension of the store is the primary
key). -/
def matchesFilters (f : Filters) (k : ℚ) (e : AuditEvent) : Bool :=
  inRangeQ f.start_time f.end_time k &&
  (match f.user_id with
   | some u => decide (e.user_id = u)
   | none => true) &&
  (match f.action_type with
   | some a => decide (e.action_type = a)
   | none => true) &&
  (match f.outcome with
   | some oc => decide (e.outcome = oc)
   | none => true)

/-- Modelled from the spec: the reference full-scan multi-criteria filter a
correct query engine must be equivalent to — scan the whole primary store
and keep the entries matching every filter dimension. -/
def fullScanQuery (c : AuditLogContainer) (f : Filters) : List AuditEvent :=
  (c.events.filter (fun p => matchesFilters f p.1 p.2)).map Prod.snd

/-- Primary-store invariant: sortedness plus the `total_events` counter
agreeing with the primary size. -/
def PrimInv (c : AuditLogContainer) : Prop :=
  AlSorted c.events ∧ c.total_events = (c.events.length : ℤ)

/-! ## Readable consistency facts derived from well-formedness -/

/-- Observable consistency of one secondary index: no empty bucket, no
dangling entry (every bucket entry resolves to a stored event of the right
dimension value), and every stored event is indexed. -/
def IdxConsistent (idx : List (String × List (ℤ × String)))
    (events : List (ℚ × AuditEvent)) (proj : AuditEvent → String) : Prop :=
  (∀ v bkt, alLookup idx v = some bkt → bkt ≠ [] ∧
    ∀ q ∈ bkt, ∃ p ∈ events, proj p.2 = v ∧ q = (scaled p.1, p.2.event_id)) ∧
  (∀ p ∈ events, ∃ bkt, alLookup idx (proj p.2) = some bkt ∧
    (scaled p.1, p.2.event_id) ∈ bkt)

/-! ## Concrete sample data for witnesses and counterexamples -/

/-- A valid success event at instant `1`. -/
def sampleSuccess : AuditEvent :=
  ⟨"e1", 1, "u", "authentication_success", "success", "i", "a", []⟩

/-- A valid failure event at the same instant `1` (collides with
`sampleSuccess` on the wall clock). -/
def sampleFailure : AuditEvent :=
  ⟨"e2", 1, "u", "authentication_failure", "failure", "i", "a", []⟩

/-- A valid failure event at instant `2`. -/
def statsFailure1 : AuditEvent :=
  ⟨"f1", 2, "u", "authentication_failure", "failure", "i", "a", []⟩

/-- A valid failure event at instant `3`. -/
def statsFailure2 : AuditEvent :=
  ⟨"f2", 3, "u", "authentication_failure", "failure", "i", "a", []⟩

/-- Two same-instant events inserted into the fresh container (the second
insert takes the collision-bumped key `1 + 0.000001`). -/
def collisionContainer : AuditLogContainer :=
  ((AuditLogContainer.empty.add_event sampleSuccess).1.add_event sampleFailure).1

/-- One success and two failure events inserted into the fresh container. -/
def statsContainer : AuditLogContainer :=
  (((AuditLogContainer.empty.add_event sampleSuccess).1.add_event
    statsFailure1).1.add_event statsFailure2).1

section AlistLemmas

variable {κ : Type*} {α : Type*}

theorem alSorted_nodupKeys [LinearOrder κ] {l : List (κ × α)} (h : AlSorted l) :
    (keysOf l).Nodup := by
  unfold keysOf List.Nodup
  exact (List.pairwise_map).mpr (h.imp fun hlt => ne_of_lt hlt)

theorem alLookup_eq_none_iff [DecidableEq κ] {l : List (κ × α)} {k : κ} :
    alLookup l k = none ↔ k ∉ keysOf l := by
  induction l with
  | nil => simp [alLookup, keysOf]
  | cons p t ih =>
    simp only [alLookup, keysOf, List.map_cons, List.mem_cons] at *
    by_cases hp : p.1 = k
    · simp [hp]
    · simp [hp, ih, Ne.symm hp]

theorem alLookup_isSome_iff [DecidableEq κ] {l : List (κ × α)} {k : κ} :
    (alLookup l k).isSome ↔ k ∈ keysOf l := by
  rw [← Decidable.not_iff_not, Bool.not_eq_true, Option.not_isSome,
    Option.isNone_iff_eq_none, alLookup_eq_none_iff]

theorem mem_of_alLookup_eq_some [DecidableEq κ] {l : List (κ × α)} {k : κ} {v : α}
    (h : alLookup l k = some v) : (k, v) ∈ l := by
  induction l with
  | nil => simp [alLookup] at h
  | cons p t ih =>
    obtain ⟨pk, pv⟩ := p
    by_cases hp : pk = k
    · subst hp
      simp [alLookup] at h
      subst h
      exact List.mem_cons_self _ _
    · simp [alLookup, hp] at h
      exact List.mem_cons_of_mem _ (ih h)

theorem alLookup_of_mem [DecidableEq κ] {l : List (κ × α)} {p : κ × α}
    (hnd : (keysOf l).Nodup) (hmem : p ∈ l) : alLookup l p.1 = some p.2 := by
  induction l with
  | nil => simp at hmem
  | cons q t ih =>
    simp only [keysOf, List.map_cons, List.nodup_cons] at hnd
    rcases List.mem_cons.mp hmem with rfl | hmem'
    · simp [alLookup]
    · have hne : q.1 ≠ p.1 := by
        intro he
        exact hnd.1 (he ▸ (List.mem_map_of_mem Prod.fst hmem'))
      simp [alLookup, hne]
      exact ih hnd.2 hmem'

theorem alLookup_alInsert_self [LinearOrder κ] {l : List (κ × α)} {k : κ} {v : α} :
    alLookup (alInsert l k v) k = some v := by
  induction l with
  | nil => simp [alInsert, alLookup]
  | cons p t ih =>
    rcases lt_trichotomy k p.1 with h | h | h
    · simp [alInsert, h, alLookup]
    · simp [alInsert, h.symm ▸ lt_irrefl k, h, alLookup]
    · have h1 : ¬ k < p.1 := not_lt_of_gt h
      have h2 : ¬ k = p.1 := ne_of_gt h
      have hpk : ¬ p.1 = k := fun he => h2 he.symm
      simp [alInsert, h1, h2, alLookup, hpk, ih]

theorem alLookup_alInsert_ne [LinearOrder κ] {l : List (κ × α)} {k k' : κ} {v : α}
    (hne : k' ≠ k) : alLookup (alInsert l k v) k' = alLookup l k' := by
  induction l with
  | nil => simp [alInsert, alLookup, Ne.symm hne]
  | cons p t ih =>
    rcases lt_trichotomy k p.1 with h | h | h
    · simp [alInsert, h, alLookup, Ne.symm hne]
    · subst h
      simp [alInsert, lt_irrefl, alLookup, Ne.symm hne]
    · have h1 : ¬ k < p.1 := not_lt_of_gt h
      have h2 : ¬ k = p.1 := ne_of_gt h
      simp only [alInsert, if_neg h1, if_neg h2, alLookup]
      by_cases hp : p.1 = k'
      · simp [hp]
      · simp [hp, ih]

theorem mem_keysOf_alInsert [LinearOrder κ] {l : List (κ × α)} {k m : κ} {v : α} :
    m ∈ keysOf (alInsert l k v) ↔ m = k ∨ m ∈ keysOf l := by
  induction l with
  | nil => simp [alInsert, keysOf]
  | cons p t ih =>
    rcases lt_trichotomy k p.1 with h | h | h
    · simp [alInsert, h, keysOf]
    · subst h
      simp [alInsert, lt_irrefl, keysOf]
    · have h1 : ¬ k < p.1 := not_lt_of_gt h
      have h2 : ¬ k = p.1 := ne_of_gt h
      simp only [alInsert, if_neg h1, if_neg h2, keysOf, List.map_cons, List.mem_cons] at *
      rw [ih]
      tauto

theorem alSorted_alInsert [LinearOrder κ] {l : List (κ × α)} {k : κ} {v : α}
    (hs : AlSorted l) : AlSorted (alInsert l k v) := by
  rw [AlSorted] at *
  induction l with
  | nil => simp [alInsert]
  | cons p t ih =>
    have hps := (List.pairwise_cons.mp hs).1
    have hts := (List.pairwise_cons.mp hs).2
    rcases lt_trichotomy k p.1 with h | h | h
    · simp only [alInsert, if_pos h]
      refine List.pairwise_cons.mpr ⟨?_, hs⟩
      intro q hq
      rcases List.mem_cons.mp hq with rfl | hq'
      · exact h
      · exact lt_trans h (hps q hq')
    · subst h
      simp only [alInsert, if_neg (lt_irrefl p.1), if_pos rfl]
      exact List.pairwise_cons.mpr ⟨hps, hts⟩
    · have h1 : ¬ k < p.1 := not_lt_of_gt h
      have h2 : ¬ k = p.1 := ne_of_gt h
      simp only [alInsert, if_neg h1, if_neg h2]
      refine List.pairwise_cons.mpr ⟨?_, ih hts⟩
      intro q hq
      have hkq : q.1 ∈ keysOf (alInsert t k v) := List.mem_map_of_mem Prod.fst hq
      rcases mem_keysOf_alInsert.mp hkq with hqk | hq'
      · exact hqk ▸ h
      · obtain ⟨r, hr, hfst⟩ := List.mem_map.mp hq'
        exact hfst ▸ hps r hr

theorem length_alInsert_of_not_mem [LinearOrder κ] {l : List (κ × α)} {k : κ} {v : α}
    (h : k ∉ keysOf l) : (alInsert l k v).length = l.length + 1 := by
  induction l with
  | nil => simp [alInsert]
  | cons p t ih =>
    simp only [keysOf, List.map_cons, List.mem_cons] at h
    push_neg at h
    rcases lt_trichotomy k p.1 with hlt | heq | hgt
    · simp [alInsert, hlt]
    · exact absurd heq h.1
    · have h1 : ¬ k < p.1 := not_lt_of_gt hgt
      have h2 : ¬ k = p.1 := ne_of_gt hgt
      simp only [alInsert, if_neg h1, if_neg h2, List.length_cons]
      rw [ih h.2]

theorem mem_alInsert_iff [LinearOrder κ] {l : List (κ × α)} {k : κ} {v : α} {q : κ × α}
    (hs : AlSorted l) : q ∈ alInsert l k v ↔ q = (k, v) ∨ (q ∈ l ∧ q.1 ≠ k) := by
  rw [AlSorted] at hs
  induction l with
  | nil =>
    simp only [alInsert, List.mem_singleton, List.not_mem_nil, false_and, or_false]
  | cons p t ih =>
    have hps := (List.pairwise_cons.mp hs).1
    have hts := (List.pairwise_cons.mp hs).2
    rcases lt_trichotomy k p.1 with hlt | heq | hgt
    · simp only [alInsert, if_pos hlt, List.mem_cons]
      constructor
      · rintro (rfl | rfl | hq)
        · exact Or.inl rfl
        · exact Or.inr ⟨Or.inl rfl, ne_of_gt hlt⟩
        · exact Or.inr ⟨Or.inr hq, ne_of_gt (lt_trans hlt (hps q hq))⟩
      · rintro (rfl | ⟨hq, _⟩)
        · exact Or.inl rfl
        · exact Or.inr hq
    · subst heq
      simp only [alInsert, if_neg (lt_irrefl p.1), if_pos rfl, if_true, ite_true,
        List.mem_cons]
      constructor
      · rintro (rfl | hq)
        · exact Or.inl rfl
        · exact Or.inr ⟨Or.inr hq, ne_of_gt (hps q hq)⟩
      · rintro (rfl | ⟨rfl | hq, hne⟩)
        · exact Or.inl rfl
        · exact absurd rfl hne
        · exact Or.inr hq
    · have h1 : ¬ k < p.1 := not_lt_of_gt hgt
      have h2 : ¬ k = p.1 := ne_of_gt hgt
      simp only [alInsert, if_neg h1, if_neg h2, List.mem_cons]
      rw [ih hts]
      constructor
      · rintro (rfl | rfl | ⟨hq, hne⟩)
        · exact Or.inr ⟨Or.inl rfl, fun he => h2 he.symm⟩
        · exact Or.inl rfl
        · exact Or.inr ⟨Or.inr hq, hne⟩
      · rintro (rfl | ⟨rfl | hq, hne⟩)
        · exact Or.inr (Or.inl rfl)
        · exact Or.inl rfl
        · exact Or.inr (Or.inr ⟨hq, hne⟩)

theorem alErase_of_not_mem [DecidableEq κ] {l : List (κ × α)} {k : κ}
    (h : k ∉ keysOf l) : alErase l k = l := by
  induction l with
  | nil => rfl
  | cons p t ih =>
    simp only [keysOf, List.map_cons, List.mem_cons] at h
    push_neg at h
    simp only [alErase, if_neg (fun he : p.1 = k => h.1 he.symm)]
    rw [ih h.2]

theorem length_alErase_of_mem [DecidableEq κ] {l : List (κ × α)} {k : κ}
    (h : k ∈ keysOf l) : (alErase l k).length + 1 = l.length := by
  induction l with
  | nil => simp [keysOf] at h
  | cons p t ih =>
    by_cases hp : p.1 = k
    · simp [alErase, hp]
    · simp only [keysOf, List.map_cons, List.mem_cons] at h
      rcases h with rfl | h'
      · exact absurd rfl hp
      · simp only [alErase, if_neg hp, List.length_cons]
        rw [ih h']

theorem mem_alErase_iff [DecidableEq κ] {l : List (κ × α)} {k : κ} {q : κ × α}
    (hnd : (keysOf l).Nodup) : q ∈ alErase l k ↔ q ∈ l ∧ q.1 ≠ k := by
  induction l with
  | nil => simp [alErase]
  | cons p t ih =>
    simp only [keysOf, List.map_cons, List.nodup_cons] at hnd
    by_cases hp : p.1 = k
    · subst hp
      simp only [alErase, if_pos rfl, List.mem_cons]
      constructor
      · intro hq
        have hne : q.1 ≠ p.1 := by
          intro he
          exact hnd.1 (he ▸ List.mem_map_of_mem Prod.fst hq)
        exact ⟨Or.inr hq, hne⟩
      · rintro ⟨rfl | hq, hne⟩
        · exact absurd rfl hne
        · exact hq
    · simp only [alErase, if_neg hp, List.mem_cons]
      rw [ih hnd.2]
      constructor
      · rintro (rfl | ⟨hq, hne⟩)
        · exact ⟨Or.inl rfl, fun he => hp he⟩
        · exact ⟨Or.inr hq, hne⟩
      · rintro ⟨rfl | hq, hne⟩
        · exact Or.inl rfl
        · exact Or.inr ⟨hq, hne⟩

theorem alLookup_alErase_self [DecidableEq κ] {l : List (κ × α)} {k : κ}
    (hnd : (keysOf l).Nodup) : alLookup (alErase l k) k = none := by
  rw [alLookup_eq_none_iff]
  intro hmem
  obtain ⟨q, hq, hfst⟩ := List.mem_map.mp hmem
  have := (mem_alErase_iff hnd).mp hq
  exact this.2 hfst

theorem alLookup_alErase_ne [DecidableEq κ] {l : List (κ × α)} {k k' : κ}
    (hne : k' ≠ k) : alLookup (alErase l k) k' = alLookup l k' := by
  induction l with
  | nil => rfl
  | cons p t ih =>
    by_cases hp : p.1 = k
    · subst hp
      have hnk : ¬ p.1 = k' := fun he => hne he.symm
      simp only [alErase, if_pos rfl, if_true, ite_true, alLookup, if_neg hnk]
    · by_cases hp' : p.1 = k'
      · simp only [alErase, if_neg hp, alLookup, if_pos hp']
      · simp only [alErase, if_neg hp, alLookup, if_neg hp']
        exact ih

theorem alErase_sublist [DecidableEq κ] (l : List (κ × α)) (k : κ) :
    List.Sublist (alErase l k) l := by
  induction l with
  | nil => simp [alErase]
  | cons r s ihs =>
    by_cases hr : r.1 = k
    · simp [alErase, hr]
    · simp only [alErase, if_neg hr]
      exact List.Sublist.cons₂ r ihs

theorem alSorted_alErase [LinearOrder κ] {l : List (κ × α)} {k : κ}
    (hs : AlSorted l) : AlSorted (alErase l k) := by
  rw [AlSorted] at *
  exact List.Pairwise.sublist (alErase_sublist l k) hs

theorem nodupKeys_alErase [DecidableEq κ] {l : List (κ × α)} {k : κ}
    (hnd : (keysOf l).Nodup) : (keysOf (alErase l k)).Nodup := by
  exact List.Nodup.sublist ((alErase_sublist l k).map Prod.fst) hnd

theorem alLookup_alSet_self [DecidableEq κ] {l : List (κ × α)} {k : κ} {v : α} :
    alLookup (alSet l k v) k = some v := by
  induction l with
  | nil => simp [alSet, alLookup]
  | cons p t ih =>
    by_cases hp : p.1 = k
    · simp [alSet, hp, alLookup]
    · simp [alSet, hp, alLookup, ih]

theorem alLookup_alSet_ne [DecidableEq κ] {l : List (κ × α)} {k k' : κ} {v : α}
    (hne : k' ≠ k) : alLookup (alSet l k v) k' = alLookup l k' := by
  induction l with
  | nil => simp [alSet, alLookup, Ne.symm hne]
  | cons p t ih =>
    by_cases hp : p.1 = k
    · subst hp
      have hnk : ¬ p.1 = k' := fun he => hne he.symm
      simp [alSet, alLookup, hnk]
    · by_cases hp' : p.1 = k'
      · simp only [alSet, if_neg hp, alLookup, if_pos hp']
      · simp only [alSet, if_neg hp, alLookup, if_neg hp']
        exact ih

theorem mem_keysOf_alSet [DecidableEq κ] {l : List (κ × α)} {k m : κ} {v : α} :
    m ∈ keysOf (alSet l k v) ↔ m = k ∨ m ∈ keysOf l := by
  induction l with
  | nil => simp [alSet, keysOf]
  | cons p t ih =>
    by_cases hp : p.1 = k
    · subst hp
      simp [alSet, keysOf]
    · simp only [alSet, if_neg hp, keysOf, List.map_cons, List.mem_cons] at *
      rw [ih]
      tauto

theorem nodupKeys_alSet [DecidableEq κ] {l : List (κ × α)} {k : κ} {v : α}
    (hnd : (keysOf l).Nodup) : (keysOf (alSet l k v)).Nodup := by
  induction l with
  | nil => simp [alSet, keysOf]
  | cons p t ih =>
    simp only [keysOf, List.map_cons, List.nodup_cons] at hnd
    by_cases hp : p.1 = k
    · subst hp
      simp only [alSet, if_pos rfl, if_true, ite_true, keysOf, List.map_cons,
        List.nodup_cons]
      exact hnd
    · simp only [alSet, if_neg hp, keysOf, List.map_cons, List.nodup_cons]
      refine ⟨?_, ih hnd.2⟩
      intro hmem
      rcases mem_keysOf_alSet.mp hmem with he | hm
      · exact hp he
      · exact hnd.1 hm

theorem mem_alSet_iff [DecidableEq κ] {l : List (κ × α)} {k : κ} {v : α} {q : κ × α}
    (hnd : (keysOf l).Nodup) : q ∈ alSet l k v ↔ q = (k, v) ∨ (q ∈ l ∧ q.1 ≠ k) := by
  induction l with
  | nil => simp [alSet]
  | cons p t ih =>
    simp only [keysOf, List.map_cons, List.nodup_cons] at hnd
    by_cases hp : p.1 = k
    · subst hp
      simp only [alSet, if_pos rfl, if_true, ite_true, List.mem_cons]
      constructor
      · rintro (rfl | hq)
        · exact Or.inl rfl
        · refine Or.inr ⟨Or.inr hq, ?_⟩
          intro he
          exact hnd.1 (he ▸ List.mem_map_of_mem Prod.fst hq)
      · rintro (rfl | ⟨rfl | hq, hne⟩)
        · exact Or.inl rfl
        · exact absurd rfl hne
        · exact Or.inr hq
    · simp only [alSet, if_neg hp, List.mem_cons]
      rw [ih hnd.2]
      constructor
      · rintro (rfl | rfl | ⟨hq, hne⟩)
        · exact Or.inr ⟨Or.inl rfl, fun he => hp he⟩
        · exact Or.inl rfl
        · exact Or.inr ⟨Or.inr hq, hne⟩
      · rintro (rfl | ⟨rfl | hq, hne⟩)
        · exact Or.inr (Or.inl rfl)
        · exact Or.inl rfl
        · exact Or.inr (Or.inr ⟨hq, hne⟩)

/-- Erasing a batch of keys none of which is the head key commutes with the
head (`foldl` state stays headed by `x`). -/
theorem foldl_alErase_cons [DecidableEq κ] {β : Type*} (key : β → κ)
    (ds : List β) (x : κ × α) (es : List (κ × α))
    (h : ∀ d ∈ ds, key d ≠ x.1) :
    ds.foldl (fun acc d => alErase acc (key d)) (x :: es)
      = x :: ds.foldl (fun acc d => alErase acc (key d)) es := by
  induction ds generalizing es with
  | nil => rfl
  | cons d ds' ih =>
    have hd : key d ≠ x.1 := h d (List.mem_cons_self _ _)
    have hx : ¬ x.1 = key d := fun he => hd he.symm
    simp only [List.foldl_cons, alErase, if_neg hx]
    exact ih _ (fun d' hd' => h d' (List.mem_cons_of_mem _ hd'))

/-- Deleting, in order, every entry of `l` selected by `p` leaves exactly the
entries not selected by `p` (primary-store effect of the cleanup loop). -/
theorem foldl_alErase_filter [DecidableEq κ]
    (l : List (κ × α)) (hnd : (keysOf l).Nodup) (p : κ × α → Bool) :
    (l.filter p).foldl (fun acc d => alErase acc d.1) l
      = l.filter (fun q => ! p q) := by
  induction l with
  | nil => rfl
  | cons x t ih =>
    simp only [keysOf, List.map_cons, List.nodup_cons] at hnd
    by_cases hx : p x = true
    · rw [List.filter_cons_of_pos hx, List.foldl_cons]
      rw [show alErase (x :: t) x.1 = t by rw [alErase, if_pos rfl]]
      rw [ih hnd.2, List.filter_cons_of_neg (by simp [hx])]
    · rw [List.filter_cons_of_neg hx, List.filter_cons_of_pos (by simp [Bool.eq_false_iff.mpr hx])]
      rw [foldl_alErase_cons Prod.fst]
      · rw [ih hnd.2]
      · intro d hd
        have hdt : d ∈ t := List.mem_of_mem_filter hd
        intro he
        exact hnd.1 (he ▸ List.mem_map_of_mem Prod.fst hdt)

end AlistLemmas

/-! ## Microsecond-key arithmetic -/

theorem isMicro_iff {q : ℚ} : isMicro q ↔ ∃ n : ℤ, q * 1000000 = (n : ℚ) := by
  rw [isMicro]
  constructor
  · intro h
    exact ⟨(q * 1000000).num, ((q * 1000000).den_eq_one_iff.mp h).symm⟩
  · rintro ⟨n, hn⟩
    rw [hn]
    exact Rat.den_intCast n

theorem pyInt_of_den_one {q : ℚ} (h : q.den = 1) : ((pyInt q : ℚ)) = q := by
  rw [pyInt, h]
  simp only [Int.ofNat_one, Int.tdiv_one]
  exact q.den_eq_one_iff.mp h

theorem scaled_cast {q : ℚ} (h : isMicro q) : ((scaled q : ℚ)) = q * 1000000 :=
  pyInt_of_den_one h

theorem scaled_div {q : ℚ} (h : isMicro q) : ((scaled q : ℚ)) / 1000000 = q := by
  rw [scaled_cast h]
  field_simp

theorem scaled_lt_scaled {p q : ℚ} (hp : isMicro p) (hq : isMicro q) (h : p < q) :
    scaled p < scaled q := by
  have : ((scaled p : ℚ)) < ((scaled q : ℚ)) := by
    rw [scaled_cast hp, scaled_cast hq]
    have h6 : (0:ℚ) < 1000000 := by norm_num
    exact (mul_lt_mul_right h6).mpr h
  exact_mod_cast this

theorem scaled_le_scaled_iff {p q : ℚ} (hp : isMicro p) (hq : isMicro q) :
    scaled p ≤ scaled q ↔ p ≤ q := by
  have hcast : ((scaled p : ℚ)) ≤ ((scaled q : ℚ)) ↔ p ≤ q := by
    rw [scaled_cast hp, scaled_cast hq]
    have h6 : (0:ℚ) < 1000000 := by norm_num
    exact mul_le_mul_right h6
  rw [← hcast]
  exact_mod_cast Iff.rfl

theorem scaled_injOn {p q : ℚ} (hp : isMicro p) (hq : isMicro q)
    (h : scaled p = scaled q) : p = q := by
  have : p * 1000000 = q * 1000000 := by
    rw [← scaled_cast hp, ← scaled_cast hq, h]
  have h6 : (1000000:ℚ) ≠ 0 := by norm_num
  exact mul_right_cancel₀ h6 this

theorem isMicro_add_step {q : ℚ} (h : isMicro q) : isMicro (q + 1 / 1000000) := by
  rcases isMicro_iff.mp h with ⟨n, hn⟩
  refine isMicro_iff.mpr ⟨n + 1, ?_⟩
  rw [add_mul, hn]
  push_cast
  ring

theorem isMicro_add_nat {q : ℚ} (h : isMicro q) (m : ℕ) :
    isMicro (q + m * (1 / 1000000)) := by
  induction m with
  | zero => simpa using h
  | succ m ih =>
    have : q + (m + 1 : ℕ) * (1 / 1000000)
        = (q + m * (1 / 1000000)) + 1 / 1000000 := by
      push_cast
      ring
    rw [this]
    exact isMicro_add_step ih

/-! ## The collision loop -/

theorem findFreeKeyGo_spec (ks : List ℚ) :
    ∀ (n : ℕ) (k : ℚ), (ks.filter (fun x => decide (k ≤ x))).length < n →
      ∃ m : ℕ, findFreeKeyGo ks n k = k + m * (1 / 1000000) ∧
        findFreeKeyGo ks n k ∉ ks ∧
        ∀ i : ℕ, i < m → k + i * (1 / 1000000) ∈ ks := by
  intro n
  induction n with
  | zero => intro k h; exact absurd h (Nat.not_lt_zero _)
  | succ n ih =>
    intro k h
    by_cases hmem : k ∈ ks
    · have hdec : (ks.filter (fun x => decide (k + 1 / 1000000 ≤ x))).length
          < (ks.filter (fun x => decide (k ≤ x))).length := by
        set A := ks.filter (fun x => decide (k ≤ x)) with hA
        have hAval : ks.filter (fun x => decide (k + 1 / 1000000 ≤ x))
            = A.filter (fun x => decide (k + 1 / 1000000 ≤ x)) := by
          rw [hA, List.filter_filter]
          refine (List.filter_congr ?_).symm
          intro x _
          by_cases hx : k + 1 / 1000000 ≤ x
          · have hkx : k ≤ x := le_trans (by linarith) hx
            simp [hx, hkx]
          · simp [hx]
            intro hc
            linarith
        rw [hAval]
        have hsub : List.Sublist (A.filter (fun x => decide (k + 1 / 1000000 ≤ x))) A :=
          List.filter_sublist A
        rcases lt_or_eq_of_le hsub.length_le with hlt | heq
        · exact hlt
        · exfalso
          have hAeq := hsub.eq_of_length heq
          have hkA : k ∈ A := by
            rw [hA]
            exact List.mem_filter.mpr ⟨hmem, by simp⟩
          rw [← hAeq] at hkA
          have := (List.mem_filter.mp hkA).2
          simp at this
          linarith
      obtain ⟨m', h1, h2, h3⟩ := ih (k + 1 / 1000000) (by omega)
      refine ⟨m' + 1, ?_, ?_, ?_⟩
      · rw [findFreeKeyGo, if_pos hmem, h1]
        push_cast
        ring
      · rw [findFreeKeyGo, if_pos hmem]
        exact h2
      · intro i hi
        match i with
        | 0 => simpa using hmem
        | j + 1 =>
          have hj : j < m' := by omega
          have := h3 j hj
          have harr : k + (j + 1 : ℕ) * (1 / 1000000)
              = k + 1 / 1000000 + (j : ℕ) * (1 / 1000000) := by
            push_cast
            ring
          rw [harr]
          exact this
    · exact ⟨0, by rw [findFreeKeyGo, if_neg hmem]; ring_nf, by
        rw [findFreeKeyGo, if_neg hmem]; exact hmem, by omega⟩

theorem findFreeKey_spec (events : List (ℚ × AuditEvent)) (k : ℚ) :
    ∃ m : ℕ, findFreeKey events k = k + m * (1 / 1000000) ∧
      findFreeKey events k ∉ keysOf events ∧
      ∀ i : ℕ, i < m → k + i * (1 / 1000000) ∈ keysOf events := by
  refine findFreeKeyGo_spec (keysOf events) (events.length + 1) k ?_
  calc ((keysOf events).filter (fun x => decide (k ≤ x))).length
      ≤ (keysOf events).length := (List.filter_sublist _).length_le
    _ = events.length := List.length_map _ _
    _ < events.length + 1 := Nat.lt_succ_self _

theorem findFreeKey_not_mem (events : List (ℚ × AuditEvent)) (k : ℚ) :
    findFreeKey events k ∉ keysOf events :=
  (findFreeKey_spec events k).choose_spec.2.1

theorem findFreeKey_isMicro {events : List (ℚ × AuditEvent)} {k : ℚ}
    (h : isMicro k) : isMicro (findFreeKey events k) := by
  obtain ⟨m, hm, -, -⟩ := findFreeKey_spec events k
  rw [hm]
  exact isMicro_add_nat h m

theorem findFreeKey_ge (events : List (ℚ × AuditEvent)) (k : ℚ) :
    k ≤ findFreeKey events k := by
  obtain ⟨m, hm, -, -⟩ := findFreeKey_spec events k
  rw [hm]
  have : (0:ℚ) ≤ m * (1 / 1000000) := by positivity
  linarith

/-! ## Bucket and index lemmas -/

theorem bucketOf_eq_nil_iff {events : List (ℚ × AuditEvent)}
    {proj : AuditEvent → String} {v : String} :
    bucketOf events proj v = [] ↔ ∀ p ∈ events, proj p.2 ≠ v := by
  rw [bucketOf, List.map_eq_nil_iff, List.filter_eq_nil_iff]
  constructor
  · intro h p hp
    have := h p hp
    simpa using this
  · intro h p hp
    simpa using h p hp

theorem mem_bucketOf_iff {events : List (ℚ × AuditEvent)}
    {proj : AuditEvent → String} {v : String} {x : ℤ × String} :
    x ∈ bucketOf events proj v ↔
      ∃ p ∈ events, proj p.2 = v ∧ x = (scaled p.1, p.2.event_id) := by
  rw [bucketOf, List.mem_map]
  constructor
  · rintro ⟨p, hp, rfl⟩
    have hm := List.mem_filter.mp hp
    exact ⟨p, hm.1, by simpa using hm.2, rfl⟩
  · rintro ⟨p, hp, hv, rfl⟩
    exact ⟨p, List.mem_filter.mpr ⟨hp, by simpa using hv⟩, rfl⟩

theorem bucketOf_sorted {events : List (ℚ × AuditEvent)}
    {proj : AuditEvent → String} {v : String}
    (hs : AlSorted events) (hm : ∀ p ∈ events, isMicro p.1) :
    AlSorted (bucketOf events proj v) := by
  rw [AlSorted] at *
  have hsc : events.Pairwise (fun p q => scaled p.1 < scaled q.1) :=
    List.Pairwise.imp_of_mem
      (fun ha hb hr => scaled_lt_scaled (hm _ ha) (hm _ hb) hr) hs
  rw [bucketOf]
  exact (List.pairwise_map).mpr
    ((List.Pairwise.filter _ hsc).imp (fun h => h))

theorem WFIdx_lookup {idx : List (String × List (ℤ × String))}
    {events : List (ℚ × AuditEvent)} {proj : AuditEvent → String}
    (h : WFIdx idx events proj) (v : String) :
    alLookup idx v =
      if bucketOf events proj v = [] then none
      else some (bucketOf events proj v) := by
  obtain ⟨hnd, hbk, hcm⟩ := h
  by_cases hmem : v ∈ keysOf idx
  · obtain ⟨b, hb⟩ := Option.isSome_iff_exists.mp (alLookup_isSome_iff.mpr hmem)
    obtain ⟨hval, hne⟩ := hbk (v, b) (mem_of_alLookup_eq_some hb)
    dsimp only at hval hne
    rw [hb, hval]
    rw [if_neg]
    rw [← hval]
    exact hne
  · rw [alLookup_eq_none_iff.mpr hmem, if_pos]
    rw [bucketOf_eq_nil_iff]
    intro p hp hv
    exact hmem (hv ▸ hcm p hp)

theorem rangeZ_eq_rangeQ {s t : Option ℚ} (hms : optMicro s) (hmt : optMicro t)
    {k : ℚ} (hk : isMicro k) :
    inRangeZ (s.map (fun a => pyInt (a * 1000000)))
      (t.map (fun b => pyInt (b * 1000000))) (scaled k) = inRangeQ s t k := by
  have hlow : (match s.map (fun a => pyInt (a * 1000000)) with
      | some a => decide (a ≤ scaled k)
      | none => true) = (match s with
      | some a => decide (a ≤ k)
      | none => true) := by
    cases s with
    | none => rfl
    | some a =>
      have ha : isMicro a := hms
      simp only [Option.map_some]
      exact decide_eq_decide.mpr (scaled_le_scaled_iff ha hk)
  have hhigh : (match t.map (fun b => pyInt (b * 1000000)) with
      | some b => decide (scaled k ≤ b)
      | none => true) = (match t with
      | some b => decide (k ≤ b)
      | none => true) := by
    cases t with
    | none => rfl
    | some b =>
      have hb : isMicro b := hmt
      simp only [Option.map_some]
      exact decide_eq_decide.mpr (scaled_le_scaled_iff hk hb)
  unfold inRangeZ inRangeQ
  rw [hlow, hhigh]
  cases s <;> cases t <;> rfl

theorem queryIdx_eq {idx : List (String × List (ℤ × String))}
    {events : List (ℚ × AuditEvent)} {proj : AuditEvent → String} {v : String}
    {s t : Option ℚ}
    (hs : AlSorted events) (hm : ∀ p ∈ events, isMicro p.1)
    (hidx : WFIdx idx events proj) (hms : optMicro s) (hmt : optMicro t) :
    queryIdx idx events v s t
      = (events.filter
          (fun p => inRangeQ s t p.1 && decide (proj p.2 = v))).map Prod.snd := by
  rw [queryIdx, WFIdx_lookup hidx v]
  by_cases hnil : bucketOf events proj v = []
  · rw [if_pos hnil]
    symm
    rw [List.map_eq_nil_iff, List.filter_eq_nil_iff]
    intro p hp
    have hne := bucketOf_eq_nil_iff.mp hnil p hp
    simp [hne]
  · rw [if_neg hnil]
    show ((bucketOf events proj v).filter _).filterMap _ = _
    rw [bucketOf, List.filter_map, List.filterMap_map]
    set M := (events.filter (fun p => decide (proj p.2 = v))).filter
      (fun p => inRangeZ (s.map (fun a => pyInt (a * 1000000)))
        (t.map (fun b => pyInt (b * 1000000))) (scaled p.1)) with hM
    have hMsub : ∀ p ∈ M, p ∈ events := by
      intro p hp
      exact List.mem_of_mem_filter (List.mem_of_mem_filter hp)
    have hresolve : ∀ p ∈ M,
        alLookup events (((scaled p.1 : ℤ) : ℚ) / 1000000) = some p.2 := by
      intro p hp
      rw [scaled_div (hm p (hMsub p hp))]
      exact alLookup_of_mem (alSorted_nodupKeys hs) (hMsub p hp)
    calc M.filterMap (fun p => alLookup events (((scaled p.1 : ℤ) : ℚ) / 1000000))
        = M.filterMap (fun p => some p.2) := List.filterMap_congr hresolve
      _ = M.map Prod.snd := congrFun (List.filterMap_eq_map Prod.snd) M
      _ = ((events.filter
            (fun p => inRangeQ s t p.1 && decide (proj p.2 = v))).map Prod.snd) := by
          rw [hM, List.filter_filter]
          refine congrArg _ (List.filter_congr ?_)
          intro p hp
          rw [rangeZ_eq_rangeQ hms hmt (hm p hp)]

theorem auditPrePagination_eq (c : AuditLogContainer) (f : Filters)
    (hwf : ContainerWF c) (hms : optMicro f.start_time)
    (hmt : optMicro f.end_time) :
    auditMemFilters f (auditDispatch c f) = fullScanQuery c f := by
  obtain ⟨hsort, hmic, hu, ha, ho⟩ := hwf
  obtain ⟨fu, fa, fo, fs, ft⟩ := f
  simp only at hms hmt
  cases fu <;> cases fa <;> cases fo <;>
    simp only [auditDispatch, auditMemFilters, fullScanQuery, matchesFilters,
      AuditLogContainer.query_by_user, AuditLogContainer.query_by_action,
      AuditLogContainer.query_by_outcome, AuditLogContainer.query_by_timestamp] <;>
    first
    | (rw [queryIdx_eq hsort hmic hu hms hmt]
       try simp only [List.filter_map, List.filter_filter]
       refine congrArg _ (List.filter_congr ?_)
       intro p hp
       simp only [Function.comp, Bool.and_true, Bool.true_and, Bool.and_assoc,
         Bool.and_comm, Bool.and_left_comm, Bool.and_self])
    | (rw [queryIdx_eq hsort hmic ha hms hmt]
       try simp only [List.filter_map, List.filter_filter]
       refine congrArg _ (List.filter_congr ?_)
       intro p hp
       simp only [Function.comp, Bool.and_true, Bool.true_and, Bool.and_assoc,
         Bool.and_comm, Bool.and_left_comm, Bool.and_self])
    | (rw [queryIdx_eq hsort hmic ho hms hmt]
       try simp only [List.filter_map, List.filter_filter]
       refine congrArg _ (List.filter_congr ?_)
       intro p hp
       simp only [Function.comp, Bool.and_true, Bool.true_and, Bool.and_assoc,
         Bool.and_comm, Bool.and_left_comm, Bool.and_self])
    | (refine congrArg _ (List.filter_congr ?_)
       intro p hp
       simp only [Bool.and_true, Bool.true_and])

/-! ## Effect lemmas for the mutating operations -/

theorem add_event_events (c : AuditLogContainer) (e : AuditEvent) :
    (c.add_event e).1.events
      = alInsert c.events (findFreeKey c.events e.timestamp) e := rfl

theorem add_event_total (c : AuditLogContainer) (e : AuditEvent) :
    (c.add_event e).1.total_events = c.total_events + 1 := rfl

theorem add_event_id (c : AuditLogContainer) (e : AuditEvent) :
    (c.add_event e).2 = e.event_id := rfl

theorem foldl_cleanupStep_events (ds : List (ℚ × AuditEvent))
    (st : AuditLogContainer) :
    (ds.foldl cleanupStep st).events
      = ds.foldl (fun (es : List (ℚ × AuditEvent)) p => alErase es p.1) st.events := by
  induction ds generalizing st with
  | nil => rfl
  | cons d ds' ih => exact ih (cleanupStep st d)

theorem cleanup_events (c : AuditLogContainer) (b n : ℚ)
    (hnd : (keysOf c.events).Nodup) :
    (c.cleanup_old_events b n).1.events
      = c.events.filter (fun p => ! decide (p.1 < b)) := by
  show ((c.events.filter (fun p => decide (p.1 < b))).foldl cleanupStep c).events = _
  rw [foldl_cleanupStep_events]
  exact foldl_alErase_filter c.events hnd (fun p => decide (p.1 < b))

theorem cleanup_count (c : AuditLogContainer) (b n : ℚ) :
    (c.cleanup_old_events b n).2
      = (c.events.filter (fun p => decide (p.1 < b))).length := rfl

theorem cleanup_total (c : AuditLogContainer) (b n : ℚ) :
    (c.cleanup_old_events b n).1.total_events
      = c.total_events - (c.cleanup_old_events b n).2 := rfl

theorem cleanup_last_cleaned (c : AuditLogContainer) (b n : ℚ) :
    (c.cleanup_old_events b n).1.last_cleaned = some n := rfl

theorem primInv_empty : PrimInv AuditLogContainer.empty := by
  constructor
  · exact List.Pairwise.nil
  · rfl

theorem primInv_add {c : AuditLogContainer} (h : PrimInv c) (e : AuditEvent) :
    PrimInv (c.add_event e).1 := by
  obtain ⟨hs, ht⟩ := h
  constructor
  · rw [add_event_events]
    exact alSorted_alInsert hs
  · rw [add_event_events, add_event_total,
      length_alInsert_of_not_mem (findFreeKey_not_mem c.events e.timestamp), ht]
    push_cast
    ring

theorem primInv_cleanup {c : AuditLogContainer} (h : PrimInv c) (b n : ℚ) :
    PrimInv (c.cleanup_old_events b n).1 := by
  obtain ⟨hs, ht⟩ := h
  have hnd := alSorted_nodupKeys hs
  have hev := cleanup_events c b n hnd
  constructor
  · rw [AlSorted] at *
    rw [hev]
    exact List.Pairwise.filter _ hs
  · rw [hev, cleanup_total, cleanup_count, ht]
    have hsplit : c.events.length
        = (c.events.filter (fun p => decide (p.1 < b))).length
          + (c.events.filter (fun p => ! decide (p.1 < b))).length :=
      List.length_eq_length_filter_add ..
    have hle : (c.events.filter (fun p => decide (p.1 < b))).length
        ≤ c.events.length := (List.filter_sublist _).length_le
    omega

theorem primInv_applyOps (ops : List AuditOp) : PrimInv (applyOps ops) := by
  rw [applyOps]
  have h : ∀ (l : List AuditOp) (c : AuditLogContainer), PrimInv c →
      PrimInv (l.foldl applyOp c) := by
    intro l
    induction l with
    | nil => intro c hc; exact hc
    | cons op l' ih =>
      intro c hc
      apply ih
      cases op with
      | add e => exact primInv_add hc e
      | cleanup b n => exact primInv_cleanup hc b n
  exact h ops AuditLogContainer.empty primInv_empty

/-! ## Index preservation -/

theorem bucketOf_cons {x : ℚ × AuditEvent} {t : List (ℚ × AuditEvent)}
    {proj : AuditEvent → String} {v : String} :
    bucketOf (x :: t) proj v
      = if proj x.2 = v then (scaled x.1, x.2.event_id) :: bucketOf t proj v
        else bucketOf t proj v := by
  by_cases hx : proj x.2 = v
  · rw [bucketOf, List.filter_cons_of_pos (by simpa using hx), List.map_cons,
      if_pos hx, bucketOf]
  · rw [bucketOf, List.filter_cons_of_neg (by simpa using hx), if_neg hx, bucketOf]

theorem alInsert_head_of_lt {κ : Type*} {α : Type*} [LinearOrder κ]
    {l : List (κ × α)} {m : κ} {w : α} (h : ∀ q ∈ l, m < q.1) :
    alInsert l m w = (m, w) :: l := by
  cases l with
  | nil => rfl
  | cons p t => rw [alInsert, if_pos (h p (List.mem_cons_self _ _))]

theorem alInsert_ne_nil {κ : Type*} {α : Type*} [LinearOrder κ]
    (l : List (κ × α)) (m : κ) (w : α) : alInsert l m w ≠ [] := by
  cases l with
  | nil => simp [alInsert]
  | cons p t =>
    rw [alInsert]
    split
    · simp
    · split <;> simp

theorem mem_keysOf_alErase {κ : Type*} {α : Type*} [DecidableEq κ]
    {l : List (κ × α)} {k m : κ} (hnd : (keysOf l).Nodup) :
    m ∈ keysOf (alErase l k) ↔ m ∈ keysOf l ∧ m ≠ k := by
  constructor
  · intro hm
    obtain ⟨q, hq, hfst⟩ := List.mem_map.mp hm
    obtain ⟨hql, hqk⟩ := (mem_alErase_iff hnd).mp hq
    exact ⟨hfst ▸ List.mem_map_of_mem Prod.fst hql, hfst ▸ hqk⟩
  · rintro ⟨hm, hne⟩
    obtain ⟨q, hq, hfst⟩ := List.mem_map.mp hm
    refine hfst ▸ List.mem_map_of_mem Prod.fst ?_
    exact (mem_alErase_iff hnd).mpr ⟨hq, hfst ▸ hne⟩

/-- In `add_event`, the get-or-create step always produces exactly the
derived bucket of the pre-insert store. -/
theorem getD_bucket {idx : List (String × List (ℤ × String))}
    {events : List (ℚ × AuditEvent)} {proj : AuditEvent → String}
    (hidx : WFIdx idx events proj) (v : String) :
    (alLookup idx v).getD [] = bucketOf events proj v := by
  rw [WFIdx_lookup hidx v]
  by_cases hnil : bucketOf events proj v = []
  · rw [if_pos hnil, hnil]
    rfl
  · rw [if_neg hnil]
    rfl

theorem bucketOf_alInsert {events : List (ℚ × AuditEvent)}
    (hs : AlSorted events) (hm : ∀ p ∈ events, isMicro p.1) {k : ℚ}
    (hkm : isMicro k) (hknew : k ∉ keysOf events) (e : AuditEvent)
    (proj : AuditEvent → String) (v : String) :
    bucketOf (alInsert events k e) proj v
      = if proj e = v then alInsert (bucketOf events proj v) (scaled k) e.event_id
        else bucketOf events proj v := by
  rw [AlSorted] at hs
  induction events with
  | nil =>
    by_cases he : proj e = v
    · rw [show alInsert ([] : List (ℚ × AuditEvent)) k e = [(k, e)] from rfl]
      rw [if_pos he, bucketOf_cons, if_pos he]
      rfl
    · rw [show alInsert ([] : List (ℚ × AuditEvent)) k e = [(k, e)] from rfl]
      rw [if_neg he, bucketOf_cons, if_neg he]
  | cons x t ih =>
    have hxt := (List.pairwise_cons.mp hs).1
    have hts := (List.pairwise_cons.mp hs).2
    simp only [keysOf, List.map_cons, List.mem_cons] at hknew
    push_neg at hknew
    have hmx : isMicro x.1 := hm x (List.mem_cons_self _ _)
    have hmt : ∀ p ∈ t, isMicro p.1 := fun p hp => hm p (List.mem_cons_of_mem _ hp)
    have hknewt : k ∉ keysOf t := by
      simp only [keysOf]
      exact hknew.2
    rcases lt_trichotomy k x.1 with hlt | heq | hgt
    · rw [show alInsert (x :: t) k e = (k, e) :: x :: t from by
        rw [alInsert, if_pos hlt]]
      by_cases he : proj e = v
      · rw [if_pos he, bucketOf_cons, if_pos he]
        have hall : ∀ q ∈ bucketOf (x :: t) proj v, scaled k < q.1 := by
          intro q hq
          obtain ⟨p, hp, hpv, rfl⟩ := mem_bucketOf_iff.mp hq
          have hkp : k < p.1 := by
            rcases List.mem_cons.mp hp with rfl | hpt
            · exact hlt
            · exact lt_trans hlt (hxt p hpt)
          exact scaled_lt_scaled hkm (hm p hp) hkp
        rw [alInsert_head_of_lt hall]
      · rw [if_neg he, bucketOf_cons, if_neg he]
    · exact absurd heq hknew.1
    · rw [show alInsert (x :: t) k e = x :: alInsert t k e from by
        rw [alInsert, if_neg (not_lt_of_gt hgt), if_neg (ne_of_gt hgt)]]
      rw [bucketOf_cons]
      rw [ih hts hmt hknewt]
      by_cases he : proj e = v
      · rw [if_pos he, if_pos he, bucketOf_cons]
        by_cases hxv : proj x.2 = v
        · rw [if_pos hxv, if_pos hxv]
          have hlt' : scaled x.1 < scaled k := scaled_lt_scaled hmx hkm hgt
          rw [alInsert, if_neg (not_lt_of_gt hlt'), if_neg (ne_of_gt hlt')]
        · rw [if_neg hxv, if_neg hxv]
      · rw [if_neg he, if_neg he, bucketOf_cons]

theorem bucketOf_alErase {events : List (ℚ × AuditEvent)}
    (hs : AlSorted events) (hm : ∀ p ∈ events, isMicro p.1) {k : ℚ} {e : AuditEvent}
    (hmem : (k, e) ∈ events) (proj : AuditEvent → String) (v : String) :
    bucketOf (alErase events k) proj v
      = if proj e = v then alErase (bucketOf events proj v) (scaled k)
        else bucketOf events proj v := by
  rw [AlSorted] at hs
  induction events with
  | nil => simp at hmem
  | cons x t ih =>
    have hxt := (List.pairwise_cons.mp hs).1
    have hts := (List.pairwise_cons.mp hs).2
    have hmx : isMicro x.1 := hm x (List.mem_cons_self _ _)
    have hmt : ∀ p ∈ t, isMicro p.1 := fun p hp => hm p (List.mem_cons_of_mem _ hp)
    by_cases hx : x.1 = k
    · have hxe : x = (k, e) := by
        rcases List.mem_cons.mp hmem with rfl | hmemt
        · rfl
        · exfalso
          have := hxt (k, e) hmemt
          rw [hx] at this
          exact lt_irrefl k this
      subst hxe
      rw [show alErase ((k, e) :: t) k = t from by rw [alErase, if_pos rfl]]
      rw [bucketOf_cons]
      by_cases he : proj e = v
      · rw [if_pos he, if_pos he]
        rw [show alErase ((scaled k, e.event_id) :: bucketOf t proj v) (scaled k)
            = bucketOf t proj v from by rw [alErase, if_pos rfl]]
      · rw [if_neg he, if_neg he]
    · have hmemt : (k, e) ∈ t := by
        rcases List.mem_cons.mp hmem with heq | hmemt
        · exact absurd (congrArg Prod.fst heq).symm hx
        · exact hmemt
      rw [show alErase (x :: t) k = x :: alErase t k from by
        rw [alErase, if_neg hx]]
      rw [bucketOf_cons, ih hts hmt hmemt]
      by_cases he : proj e = v
      · rw [if_pos he, if_pos he, bucketOf_cons]
        by_cases hxv : proj x.2 = v
        · rw [if_pos hxv, if_pos hxv]
          have hne : ¬ scaled x.1 = scaled k := by
            intro hsc
            exact hx (scaled_injOn hmx (hm (k, e) hmem) hsc)
          rw [show alErase ((scaled x.1, x.2.event_id) :: bucketOf t proj v) (scaled k)
              = (scaled x.1, x.2.event_id) :: alErase (bucketOf t proj v) (scaled k) from by
            rw [alErase, if_neg hne]]
        · rw [if_neg hxv, if_neg hxv]
      · rw [if_neg he, if_neg he, bucketOf_cons]

theorem WFIdx_idxInsert {idx : List (String × List (ℤ × String))}
    {events : List (ℚ × AuditEvent)} {proj : AuditEvent → String}
    (hs : AlSorted events) (hm : ∀ p ∈ events, isMicro p.1)
    (hidx : WFIdx idx events proj) {k : ℚ} (hkm : isMicro k)
    (hknew : k ∉ keysOf events) (e : AuditEvent) :
    WFIdx (idxInsert idx (proj e) (scaled k) e.event_id)
      (alInsert events k e) proj := by
  obtain ⟨hnd, hbk, hcm⟩ := hidx
  have hB0 := getD_bucket ⟨hnd, hbk, hcm⟩ (proj e)
  have hbins := bucketOf_alInsert hs hm hkm hknew e proj
  rw [idxInsert, hB0]
  refine ⟨nodupKeys_alSet hnd, ?_, ?_⟩
  · intro b hb
    rcases (mem_alSet_iff hnd).mp hb with rfl | ⟨hbidx, hbne⟩
    · constructor
      · have := hbins (proj e)
        rw [if_pos rfl] at this
        exact this.symm
      · exact alInsert_ne_nil _ _ _
    · obtain ⟨hval, hne⟩ := hbk b hbidx
      constructor
      · rw [hval]
        have := hbins b.1
        rw [if_neg (fun he => hbne he.symm)] at this
        · exact this.symm
      · exact hne
  · intro p hp
    rcases (mem_alInsert_iff hs).mp hp with rfl | ⟨hpold, -⟩
    · exact mem_keysOf_alSet.mpr (Or.inl rfl)
    · exact mem_keysOf_alSet.mpr (Or.inr (hcm p hpold))

theorem WFIdx_idxRemove {idx : List (String × List (ℤ × String))}
    {events : List (ℚ × AuditEvent)} {proj : AuditEvent → String}
    (hs : AlSorted events) (hm : ∀ p ∈ events, isMicro p.1)
    (hidx : WFIdx idx events proj) {k : ℚ} {e : AuditEvent}
    (hmem : (k, e) ∈ events) :
    WFIdx (idxRemove idx (proj e) (scaled k)) (alErase events k) proj := by
  obtain ⟨hnd, hbk, hcm⟩ := hidx
  have hnde : (keysOf events).Nodup := alSorted_nodupKeys hs
  have hber := bucketOf_alErase hs hm hmem proj
  set B := bucketOf events proj (proj e) with hBdef
  have hentry : (scaled k, e.event_id) ∈ B :=
    mem_bucketOf_iff.mpr ⟨(k, e), hmem, rfl, rfl⟩
  have hBne : B ≠ [] := fun hnil => by simp [hnil] at hentry
  have hlook : alLookup idx (proj e) = some B := by
    rw [WFIdx_lookup ⟨hnd, hbk, hcm⟩ (proj e), if_neg hBne]
  have hskmem : scaled k ∈ keysOf B := List.mem_map_of_mem Prod.fst hentry
  have hBsort := @bucketOf_sorted events proj (proj e) hs hm
  rw [AlSorted] at *
  have hBnd : (keysOf B).Nodup := alSorted_nodupKeys hBsort
  rw [idxRemove, hlook]
  simp only [if_pos hskmem]
  set B' := alErase B (scaled k) with hB'def
  by_cases hBe : B'.isEmpty
  · simp only [if_pos hBe]
    refine ⟨nodupKeys_alErase hnd, ?_, ?_⟩
    · intro b hb
      obtain ⟨hbidx, hbne⟩ := (mem_alErase_iff hnd).mp hb
      obtain ⟨hval, hne⟩ := hbk b hbidx
      refine ⟨?_, hne⟩
      rw [hval]
      have := hber b.1
      rw [if_neg (fun he => hbne he.symm)] at this
      exact this.symm
    · intro p hp
      obtain ⟨hpold, hpne⟩ := (mem_alErase_iff hnde).mp hp
      by_cases hpv : proj p.2 = proj e
      · exfalso
        have hpB' : (scaled p.1, p.2.event_id) ∈ bucketOf (alErase events k) proj (proj e) := by
          refine mem_bucketOf_iff.mpr ⟨p, ?_, hpv, rfl⟩
          exact (mem_alErase_iff hnde).mpr ⟨hpold, hpne⟩
        rw [hber (proj e), if_pos rfl, ← hB'def] at hpB'
        rw [List.isEmpty_iff] at hBe
        simp [hBe] at hpB'
      · refine (mem_keysOf_alErase hnd).mpr ⟨hcm p hpold, hpv⟩
  · simp only [if_neg hBe]
    refine ⟨nodupKeys_alSet hnd, ?_, ?_⟩
    · intro b hb
      rcases (mem_alSet_iff hnd).mp hb with rfl | ⟨hbidx, hbne⟩
      · constructor
        · have := hber (proj e)
          rw [if_pos rfl] at this
          exact this.symm
        · intro hnil
          rw [List.isEmpty_iff] at hBe
          exact hBe hnil
      · obtain ⟨hval, hne⟩ := hbk b hbidx
        refine ⟨?_, hne⟩
        rw [hval]
        have := hber b.1
        rw [if_neg (fun he => hbne he.symm)] at this
        exact this.symm
    · intro p hp
      obtain ⟨hpold, hpne⟩ := (mem_alErase_iff hnde).mp hp
      by_cases hpv : proj p.2 = proj e
      · exact mem_keysOf_alSet.mpr (Or.inl hpv)
      · exact mem_keysOf_alSet.mpr (Or.inr (hcm p hpold))

theorem ContainerWF_empty : ContainerWF AuditLogContainer.empty := by
  refine ⟨List.Pairwise.nil, ?_, ?_, ?_, ?_⟩ <;>
    first
    | (intro p hp; simp [AuditLogContainer.empty] at hp)
    | (refine ⟨List.nodup_nil, ?_, ?_⟩ <;> intro p hp <;>
        simp [AuditLogContainer.empty] at hp)

theorem ContainerWF_add {c : AuditLogContainer} (hwf : ContainerWF c)
    {e : AuditEvent} (hme : isMicro e.timestamp) :
    ContainerWF (c.add_event e).1 := by
  obtain ⟨hs, hm, hu, ha, ho⟩ := hwf
  have hkm : isMicro (findFreeKey c.events e.timestamp) := findFreeKey_isMicro hme
  have hknew := findFreeKey_not_mem c.events e.timestamp
  refine ⟨?_, ?_, ?_, ?_, ?_⟩
  · exact alSorted_alInsert hs
  · intro p hp
    rcases (mem_alInsert_iff hs).mp hp with rfl | ⟨hpold, -⟩
    · exact hkm
    · exact hm p hpold
  · exact WFIdx_idxInsert hs hm hu hkm hknew e
  · exact WFIdx_idxInsert hs hm ha hkm hknew e
  · exact WFIdx_idxInsert hs hm ho hkm hknew e

theorem ContainerWF_cleanupStep {st : AuditLogContainer} (hwf : ContainerWF st)
    {d : ℚ × AuditEvent} (hmem : d ∈ st.events) :
    ContainerWF (cleanupStep st d) := by
  obtain ⟨hs, hm, hu, ha, ho⟩ := hwf
  obtain ⟨k, e⟩ := d
  refine ⟨?_, ?_, ?_, ?_, ?_⟩
  · exact alSorted_alErase hs
  · intro p hp
    exact hm p ((mem_alErase_iff (alSorted_nodupKeys hs)).mp hp).1
  · exact WFIdx_idxRemove hs hm hu hmem
  · exact WFIdx_idxRemove hs hm ha hmem
  · exact WFIdx_idxRemove hs hm ho hmem

theorem ContainerWF_foldl_cleanupStep (ds : List (ℚ × AuditEvent)) :
    ∀ (st : AuditLogContainer), ContainerWF st → (keysOf ds).Nodup →
      (∀ p ∈ ds, p ∈ st.events) → ContainerWF (ds.foldl cleanupStep st) := by
  induction ds with
  | nil => intro st hwf _ _; exact hwf
  | cons d ds' ih =>
    intro st hwf hnd hsub
    simp only [keysOf, List.map_cons, List.nodup_cons] at hnd
    have hdmem : d ∈ st.events := hsub d (List.mem_cons_self _ _)
    have hwf' := ContainerWF_cleanupStep hwf hdmem
    refine ih (cleanupStep st d) hwf' hnd.2 ?_
    intro p hp
    have hpmem : p ∈ st.events := hsub p (List.mem_cons_of_mem _ hp)
    have hpne : p.1 ≠ d.1 := by
      intro he
      exact hnd.1 (he ▸ List.mem_map_of_mem Prod.fst hp)
    show p ∈ alErase st.events d.1
    exact (mem_alErase_iff (alSorted_nodupKeys hwf.1)).mpr ⟨hpmem, hpne⟩

theorem ContainerWF_cleanup {c : AuditLogContainer} (hwf : ContainerWF c)
    (b n : ℚ) : ContainerWF (c.cleanup_old_events b n).1 := by
  have hnd : (keysOf c.events).Nodup := alSorted_nodupKeys hwf.1
  set toDelete := c.events.filter (fun p => decide (p.1 < b)) with hD
  have hDnd : (keysOf toDelete).Nodup := by
    rw [hD, keysOf]
    exact List.Nodup.sublist ((List.filter_sublist c.events).map Prod.fst) hnd
  have hDsub : ∀ p ∈ toDelete, p ∈ c.events := by
    intro p hp
    rw [hD] at hp
    exact List.mem_of_mem_filter hp
  have hfold := ContainerWF_foldl_cleanupStep toDelete c hwf hDnd hDsub
  obtain ⟨hs1, hs2, hs3, hs4, hs5⟩ := hfold
  exact ⟨hs1, hs2, hs3, hs4, hs5⟩

theorem WFIdx.consistent {idx : List (String × List (ℤ × String))}
    {events : List (ℚ × AuditEvent)} {proj : AuditEvent → String}
    (h : WFIdx idx events proj) : IdxConsistent idx events proj := by
  constructor
  · intro v bkt hlk
    obtain ⟨hval, hne⟩ := h.2.1 (v, bkt) (mem_of_alLookup_eq_some hlk)
    dsimp only at hval hne
    refine ⟨hne, ?_⟩
    intro q hq
    rw [hval] at hq
    exact mem_bucketOf_iff.mp hq
  · intro p hp
    have hentry : (scaled p.1, p.2.event_id) ∈ bucketOf events proj (proj p.2) :=
      mem_bucketOf_iff.mpr ⟨p, hp, rfl, rfl⟩
    have hne : bucketOf events proj (proj p.2) ≠ [] := by
      intro hnil
      simp [hnil] at hentry
    refine ⟨bucketOf events proj (proj p.2), ?_, hentry⟩
    rw [WFIdx_lookup h, if_neg hne]

/-! ## Claim C3 -/

/-- Claim C3: after any sequence of `add_event` and `cleanup_old_events`
calls on an `AuditLogContainer`, the metadata counter `total_events` equals
the number of entries in the primary events map. -/
theorem total_events_eq_primary_size (ops : List AuditOp) :
    (applyOps ops).total_events = (((applyOps ops).events.length : ℤ)) :=
  (primInv_applyOps ops).2

/-! ## Claim C10 -/

/-- Claim C10: `query_audit_logs` with `limit = 0` does not return an empty
page: a zero limit is treated the same as no limit (Python falsiness of
`0` in `offset + limit if limit else len(events)`), so the result holds
every filtered event from `offset` to the end and `has_more` is `False`. -/
theorem limit_zero_returns_rest (c : AuditLogContainer) (f : Filters) (off : ℕ) :
    (query_audit_logs c f (some 0) off).events
        = (query_audit_logs c f none off).events ∧
    (query_audit_logs c f (some 0) off).total
        = (query_audit_logs c f none off).total ∧
    (query_audit_logs c f (some 0) off).events
        = ((auditQueryList c f).drop off).map AuditEvent.to_dict ∧
    (query_audit_logs c f (some 0) off).has_more = false := by
  set evs := auditQueryList c f with hevs
  have hpage : (evs.take evs.length).drop off = evs.drop off := by
    rw [List.take_length]
  refine ⟨?_, rfl, ?_, ?_⟩
  · show ((evs.take evs.length).drop off).map AuditEvent.to_dict
      = ((evs.take evs.length).drop off).map AuditEvent.to_dict
    rfl
  · show ((evs.take evs.length).drop off).map AuditEvent.to_dict
      = (evs.drop off).map AuditEvent.to_dict
    rw [hpage]
  · show decide (off + ((evs.take evs.length).drop off).length < evs.length) = false
    rw [hpage]
    refine decide_eq_false ?_
    rw [List.length_drop]
    omega

/-! ## Claim C7 -/

/-- Claim C7: `AuditEvent` construction raises `ValueError` exactly when
`action_type` is outside the 14-kind vocabulary or `outcome` is outside
`{success, failure}`; on success it carries the fresh id and current UTC
instant it was given, substitutes `"anonymous"` / `"unknown"` defaults for
absent actor and provenance fields, and never yields a partially-valid
event (the error case yields no event at all). -/
theorem audit_event_construction_spec (fid : String) (now : ℚ)
    (uid : Option String) (atype oc : String) (ip ua : Option String)
    (md : Option (List (String × String))) :
    AUDIT_ACTION_TYPES.length = 14 ∧
    ((∃ e, AuditEvent.make fid now uid atype oc ip ua md = Except.ok e) ↔
      (atype ∈ AUDIT_ACTION_TYPES ∧ (oc = "success" ∨ oc = "failure"))) ∧
    (∀ e, AuditEvent.make fid now uid atype oc ip ua md = Except.ok e →
      e.event_id = fid ∧ e.timestamp = now ∧
      e.user_id = pyOr uid "anonymous" ∧ e.action_type = atype ∧
      e.outcome = oc ∧ e.ip_address = pyOr ip "unknown" ∧
      e.user_agent = pyOr ua "unknown" ∧ e.metadata = md.getD []) := by
  refine ⟨rfl, ?_, ?_⟩
  · constructor
    · rintro ⟨e, he⟩
      rw [AuditEvent.make] at he
      by_cases h1 : atype ∈ AUDIT_ACTION_TYPES
      · by_cases h2 : oc = "success" ∨ oc = "failure"
        · exact ⟨h1, h2⟩
        · rw [if_neg (by simpa using h1), if_pos h2] at he
          exact absurd he (by simp)
      · rw [if_pos (by simpa using h1)] at he
        exact absurd he (by simp)
    · rintro ⟨h1, h2⟩
      rw [AuditEvent.make, if_neg (by simpa using h1), if_neg (not_not_intro h2)]
      exact ⟨_, rfl⟩
  · intro e he
    rw [AuditEvent.make] at he
    by_cases h1 : atype ∈ AUDIT_ACTION_TYPES
    · by_cases h2 : oc = "success" ∨ oc = "failure"
      · rw [if_neg (by simpa using h1), if_neg (not_not_intro h2)] at he
        injection he with he'
        subst he'
        exact ⟨rfl, rfl, rfl, rfl, rfl, rfl, rfl, rfl⟩
      · rw [if_neg (by simpa using h1), if_pos h2] at he
        exact absurd he (by simp)
    · rw [if_pos (by simpa using h1)] at he
      exact absurd he (by simp)

/-- Witness for C7: a fully valid construction succeeds (and an invalid
action kind is rejected), instantiating the specification theorem. -/
theorem audit_event_construction_spec_witness :
    ∃ e, AuditEvent.make "id1" 5 none "authentication_success" "success"
      none none none = Except.ok e :=
  (audit_event_construction_spec "id1" 5 none "authentication_success"
    "success" none none none).2.1.mpr (by decide)

/-! ## Claim C8 (corrected) -/

/-- Counterexample to claim C8 as stated: a validation failure (invalid
action kind, storage healthy) and a storage failure (valid inputs) produce
the *identical* returned result `None`, so a caller cannot distinguish the
two error kinds from the returned result — the distinction exists only in
the log messages. -/
theorem log_audit_event_null_counterexample :
    (log_audit_event false AuditLogContainer.empty "id1" 1 none
        "bogus_action" "success" none none none).1 = none ∧
    (log_audit_event true AuditLogContainer.empty "id1" 1 none
        "authentication_success" "success" none none none).1 = none ∧
    (log_audit_event false AuditLogContainer.empty "id1" 1 none
          "bogus_action" "success" none none none).1
      = (log_audit_event true AuditLogContainer.empty "id1" 1 none
          "authentication_success" "success" none none none).1 := by
  refine ⟨?_, ?_, ?_⟩ <;> decide

/-- Claim C8 as amended: `log_audit_event` fails open on **both** error
kinds — a validation error (bad `action_type`/`outcome`) and a
storage-layer failure each cause the call to return `None` instead of
raising; only the log records which kind occurred, so the returned result
does not distinguish them.  On the success path the stored event's id is
returned. -/
theorem log_audit_event_fail_open (sf : Bool) (c : AuditLogContainer)
    (fid : String) (now : ℚ) (uid : Option String) (atype oc : String)
    (ip ua : Option String) (md : Option (List (String × String))) :
    ((∀ msg, AuditEvent.make fid now uid atype oc ip ua md = Except.error msg →
        log_audit_event sf c fid now uid atype oc ip ua md = (none, c)) ∧
     (sf = true →
        (log_audit_event sf c fid now uid atype oc ip ua md).1 = none) ∧
     (sf = false → ∀ e, AuditEvent.make fid now uid atype oc ip ua md = Except.ok e →
        log_audit_event sf c fid now uid atype oc ip ua md
          = (some e.event_id, (c.add_event e).1))) := by
  refine ⟨?_, ?_, ?_⟩
  · intro msg hmk
    rw [log_audit_event, hmk]
  · intro hsf
    rw [log_audit_event]
    cases hmk : AuditEvent.make fid now uid atype oc ip ua md with
    | error msg => rfl
    | ok e =>
      rw [hsf]
      rfl
  · intro hsf e hmk
    rw [log_audit_event, hmk, hsf]
    rfl

/-- Witness for the amended C8: at a concrete storage failure with valid
inputs the returned result is null. -/
theorem log_audit_event_fail_open_witness :
    (log_audit_event true AuditLogContainer.empty "id1" 1 none
        "authentication_success" "success" none none none).1 = none :=
  (log_audit_event_fail_open true AuditLogContainer.empty "id1" 1 none
    "authentication_success" "success" none none none).2.1 rfl

/-! ## Claim C2 -/

/-- Claim C2: two events added with identical wall-clock timestamps are
both retained under strictly distinct primary keys — the colliding key is
bumped by the fixed increment `0.000001` until unique — neither overwrites
the other (the primary store grows by two), insertion order is preserved
among same-instant events (the first event gets the smaller key), and each
is independently retrievable from the primary store. -/
theorem add_event_collision_preserves_both (c : AuditLogContainer)
    (e1 e2 : AuditEvent) (k1 k2 : ℚ) (heq : e1.timestamp = e2.timestamp)
    (hk1 : k1 = findFreeKey c.events e1.timestamp)
    (hk2 : k2 = findFreeKey ((c.add_event e1).1).events e2.timestamp) :
    k1 < k2 ∧
    alLookup (((c.add_event e1).1.add_event e2).1).events k1 = some e1 ∧
    alLookup (((c.add_event e1).1.add_event e2).1).events k2 = some e2 ∧
    (((c.add_event e1).1.add_event e2).1).events.length = c.events.length + 2 ∧
    (∃ n1 n2 : ℕ, n1 < n2 ∧ k1 = e1.timestamp + n1 * (1 / 1000000) ∧
      k2 = e1.timestamp + n2 * (1 / 1000000)) := by
  obtain ⟨n1, hk1eq, hk1nm, hk1low⟩ := findFreeKey_spec c.events e1.timestamp
  obtain ⟨n2, hk2eq, hk2nm, hk2low⟩ :=
    findFreeKey_spec ((c.add_event e1).1).events e2.timestamp
  rw [← hk1] at hk1eq hk1nm
  rw [← hk2] at hk2eq hk2nm
  rw [← heq] at hk2eq hk2low
  have hE1 : ((c.add_event e1).1).events
      = alInsert c.events (findFreeKey c.events e1.timestamp) e1 :=
    add_event_events c e1
  rw [← hk1] at hE1
  have hk1memE1 : k1 ∈ keysOf ((c.add_event e1).1).events := by
    rw [hE1]
    exact mem_keysOf_alInsert.mpr (Or.inl rfl)
  have hn12 : n1 < n2 := by
    rcases lt_trichotomy n1 n2 with h | h | h
    · exact h
    · exfalso
      apply hk2nm
      rw [hk2eq, ← h, ← hk1eq]
      exact hk1memE1
    · exfalso
      apply hk2nm
      rw [hk2eq]
      have hmem : e1.timestamp + n2 * (1 / 1000000) ∈ keysOf c.events :=
        hk1low n2 h
      rw [hE1]
      exact mem_keysOf_alInsert.mpr (Or.inr hmem)
  have hk12 : k1 < k2 := by
    rw [hk1eq, hk2eq]
    have hcast : ((n1 : ℚ)) < ((n2 : ℚ)) := by exact_mod_cast hn12
    have : (n1 : ℚ) * (1 / 1000000) < (n2 : ℚ) * (1 / 1000000) :=
      mul_lt_mul_of_pos_right hcast (by norm_num)
    linarith
  have hE2 : (((c.add_event e1).1.add_event e2).1).events
      = alInsert ((c.add_event e1).1).events
          (findFreeKey ((c.add_event e1).1).events e2.timestamp) e2 :=
    add_event_events (c.add_event e1).1 e2
  rw [← hk2] at hE2
  refine ⟨hk12, ?_, ?_, ?_, n1, n2, hn12, hk1eq, hk2eq⟩
  · rw [hE2, alLookup_alInsert_ne (ne_of_lt hk12), hE1]
    exact alLookup_alInsert_self
  · rw [hE2]
    exact alLookup_alInsert_self
  · rw [hE2, length_alInsert_of_not_mem hk2nm, hE1,
      length_alInsert_of_not_mem hk1nm]

/-- Witness for C2: two concrete events with the identical timestamp `1`
are both retained and retrievable after two inserts into the empty
container. -/
theorem add_event_collision_preserves_both_witness :
    (1 : ℚ) < findFreeKey
        ((AuditLogContainer.empty.add_event
          { event_id := "e1", timestamp := 1, user_id := "u",
            action_type := "authentication_success", outcome := "success",
            ip_address := "i", user_agent := "a", metadata := [] }).1).events 1 ∧
    (((AuditLogContainer.empty.add_event
        { event_id := "e1", timestamp := 1, user_id := "u",
          action_type := "authentication_success", outcome := "success",
          ip_address := "i", user_agent := "a", metadata := [] }).1.add_event
        { event_id := "e2", timestamp := 1, user_id := "u",
          action_type := "authentication_failure", outcome := "failure",
          ip_address := "i", user_agent := "a", metadata := [] }).1).events.length = 2 := by
  have h := add_event_collision_preserves_both AuditLogContainer.empty
    { event_id := "e1", timestamp := 1, user_id := "u",
      action_type := "authentication_success", outcome := "success",
      ip_address := "i", user_agent := "a", metadata := [] }
    { event_id := "e2", timestamp := 1, user_id := "u",
      action_type := "authentication_failure", outcome := "failure",
      ip_address := "i", user_agent := "a", metadata := [] }
    (findFreeKey AuditLogContainer.empty.events 1)
    (findFreeKey ((AuditLogContainer.empty.add_event
      { event_id := "e1", timestamp := 1, user_id := "u",
        action_type := "authentication_success", outcome := "success",
        ip_address := "i", user_agent := "a", metadata := [] }).1).events 1)
    rfl rfl rfl
  have hfk : findFreeKey AuditLogContainer.empty.events (1 : ℚ) = 1 := rfl
  exact ⟨hfk ▸ h.1, h.2.2.2.1⟩

/-! ## Claim C1 -/

/-- Claim C1: every event passed to `add_event` is afterwards retrievable
via all four query paths; it has exactly one entry in each secondary
index, keyed by the scaled key `int(key * 1000000)` — which, at the
microsecond resolution `datetime` guarantees, equals `round(key * 1e6)`
exactly — and that scaled key is the same across the three indexes and
divides back by 1,000,000 to the event's primary key, so the secondary
lookups resolve the event through the primary map. -/
theorem add_event_indexed_retrievable (c : AuditLogContainer) (e : AuditEvent)
    (k : ℚ) (sk : ℤ) (hwf : ContainerWF c) (hme : isMicro e.timestamp)
    (hk : k = findFreeKey c.events e.timestamp) (hsk : sk = scaled k) :
    ((sk : ℚ) = k * 1000000 ∧ ((sk : ℚ)) / 1000000 = k) ∧
    alLookup ((c.add_event e).1).events k = some e ∧
    (∃ bu, alLookup ((c.add_event e).1).by_user e.user_id = some bu ∧
      alLookup bu sk = some e.event_id ∧ (keysOf bu).count sk = 1) ∧
    (∃ ba, alLookup ((c.add_event e).1).by_action e.action_type = some ba ∧
      alLookup ba sk = some e.event_id ∧ (keysOf ba).count sk = 1) ∧
    (∃ bo, alLookup ((c.add_event e).1).by_outcome e.outcome = some bo ∧
      alLookup bo sk = some e.event_id ∧ (keysOf bo).count sk = 1) ∧
    e ∈ ((c.add_event e).1).query_by_timestamp none none ∧
    e ∈ ((c.add_event e).1).query_by_user e.user_id none none ∧
    e ∈ ((c.add_event e).1).query_by_action e.action_type none none ∧
    e ∈ ((c.add_event e).1).query_by_outcome e.outcome none none := by
  subst hk
  subst hsk
  obtain ⟨hs, hm, hu, ha, ho⟩ := hwf
  have hkm : isMicro (findFreeKey c.events e.timestamp) := findFreeKey_isMicro hme
  have hknew := findFreeKey_not_mem c.events e.timestamp
  have hwf' : ContainerWF (c.add_event e).1 :=
    ContainerWF_add ⟨hs, hm, hu, ha, ho⟩ hme
  have hmemev : (findFreeKey c.events e.timestamp, e) ∈ ((c.add_event e).1).events := by
    rw [add_event_events]
    exact (mem_alInsert_iff hs).mpr (Or.inl rfl)
  have hidxgen : ∀ (idx : List (String × List (ℤ × String)))
      (proj : AuditEvent → String), WFIdx idx c.events proj →
      ∃ b, alLookup (idxInsert idx (proj e)
            (scaled (findFreeKey c.events e.timestamp)) e.event_id) (proj e)
          = some b ∧
        alLookup b (scaled (findFreeKey c.events e.timestamp)) = some e.event_id ∧
        (keysOf b).count (scaled (findFreeKey c.events e.timestamp)) = 1 := by
    intro idx proj hidx
    rw [idxInsert, getD_bucket hidx]
    refine ⟨_, alLookup_alSet_self, alLookup_alInsert_self, ?_⟩
    have hBsort : AlSorted (bucketOf c.events proj (proj e)) := bucketOf_sorted hs hm
    have hnew : AlSorted (alInsert (bucketOf c.events proj (proj e))
        (scaled (findFreeKey c.events e.timestamp)) e.event_id) :=
      alSorted_alInsert hBsort
    refine List.count_eq_one_of_mem (alSorted_nodupKeys hnew) ?_
    exact mem_keysOf_alInsert.mpr (Or.inl rfl)
  have hqmem : ∀ (idx : List (String × List (ℤ × String)))
      (proj : AuditEvent → String),
      WFIdx idx ((c.add_event e).1).events proj →
      e ∈ queryIdx idx ((c.add_event e).1).events (proj e) none none := by
    intro idx proj hidx
    rw [queryIdx_eq hwf'.1 hwf'.2.1 hidx (show optMicro none from trivial)
      (show optMicro none from trivial)]
    refine List.mem_map.mpr ⟨(findFreeKey c.events e.timestamp, e), ?_, rfl⟩
    refine List.mem_filter.mpr ⟨hmemev, ?_⟩
    simp [inRangeQ]
  refine ⟨⟨scaled_cast hkm, scaled_div hkm⟩, ?_, ?_, ?_, ?_, ?_, ?_, ?_, ?_⟩
  · rw [add_event_events]
    exact alLookup_alInsert_self
  · exact hidxgen c.by_user (fun ev => ev.user_id) hu
  · exact hidxgen c.by_action (fun ev => ev.action_type) ha
  · exact hidxgen c.by_outcome (fun ev => ev.outcome) ho
  · rw [AuditLogContainer.query_by_timestamp]
    refine List.mem_map.mpr ⟨(findFreeKey c.events e.timestamp, e), ?_, rfl⟩
    refine List.mem_filter.mpr ⟨hmemev, ?_⟩
    simp [inRangeQ]
  · exact hqmem ((c.add_event e).1).by_user (fun ev => ev.user_id) hwf'.2.2.1
  · exact hqmem ((c.add_event e).1).by_action (fun ev => ev.action_type) hwf'.2.2.2.1
  · exact hqmem ((c.add_event e).1).by_outcome (fun ev => ev.outcome) hwf'.2.2.2.2

/-- Witness for C1: the concrete event `sampleSuccess` (instant `1`) added
to the empty container is resolvable through the primary store under the
collision-free key chosen by the insert. -/
theorem add_event_indexed_retrievable_witness :
    isMicro ((1 : ℚ)) ∧ ContainerWF AuditLogContainer.empty ∧
    alLookup ((AuditLogContainer.empty.add_event sampleSuccess).1).events
      (findFreeKey AuditLogContainer.empty.events 1) = some sampleSuccess := by
  have hmic : isMicro ((1 : ℚ)) := by
    rw [isMicro]
    norm_num
  have h := add_event_indexed_retrievable AuditLogContainer.empty sampleSuccess
    (findFreeKey AuditLogContainer.empty.events 1)
    (scaled (findFreeKey AuditLogContainer.empty.events 1))
    ContainerWF_empty hmic rfl rfl
  exact ⟨hmic, ContainerWF_empty, h.2.1⟩

/-! ## Claim C5 -/

/-- Claim C5: `query_audit_logs` with `{user_id: X, outcome: "failure"}`
returns exactly the intersection of `query_by_user(X)` with the events
whose outcome is `"failure"`; and in general the engine — one indexed
lookup chosen by the precedence `user_id > action_type > outcome >
time-only scan`, remaining dimensions applied as an in-memory AND-filter —
returns the same set (as a multiset) as the reference full scan. -/
theorem query_engine_indexed_equals_fullscan (c : AuditLogContainer)
    (hwf : ContainerWF c) :
    (∀ X : String,
      ((query_audit_logs c
          ⟨some X, none, some "failure", none, none⟩ none 0).events).Perm
        (((c.query_by_user X none none).filter
            (fun e => decide (e.outcome = "failure"))).map AuditEvent.to_dict)) ∧
    (∀ f : Filters, optMicro f.start_time → optMicro f.end_time →
      ((query_audit_logs c f none 0).events).Perm
        ((fullScanQuery c f).map AuditEvent.to_dict)) := by
  have hpage : ∀ (f : Filters),
      (query_audit_logs c f none 0).events
        = (auditQueryList c f).map AuditEvent.to_dict := by
    intro f
    show (((auditQueryList c f).take (auditQueryList c f).length).drop 0).map
        AuditEvent.to_dict = _
    rw [List.take_length, List.drop_zero]
  have hsortperm : ∀ (l : List AuditEvent), (sortDesc l).Perm l := by
    intro l
    exact List.mergeSort_perm l _
  constructor
  · intro X
    rw [hpage]
    refine List.Perm.map AuditEvent.to_dict ?_
    show (sortDesc (auditMemFilters ⟨some X, none, some "failure", none, none⟩
      (auditDispatch c ⟨some X, none, some "failure", none, none⟩))).Perm _
    have hmf : auditMemFilters ⟨some X, none, some "failure", none, none⟩
        (auditDispatch c ⟨some X, none, some "failure", none, none⟩)
        = (c.query_by_user X none none).filter
            (fun e => decide (e.outcome = "failure")) := rfl
    rw [hmf]
    exact hsortperm _
  · intro f hms hmt
    rw [hpage]
    refine List.Perm.map AuditEvent.to_dict ?_
    show (sortDesc (auditMemFilters f (auditDispatch c f))).Perm _
    rw [auditPrePagination_eq c f hwf hms hmt]
    exact hsortperm _

/-- Witness for C5: the headline instance at the empty container and
`X = "u"` — the engine result and the filtered indexed lookup agree. -/
theorem query_engine_indexed_equals_fullscan_witness :
    ContainerWF AuditLogContainer.empty ∧
    ((query_audit_logs AuditLogContainer.empty
        ⟨some "u", none, some "failure", none, none⟩ none 0).events).Perm
      (((AuditLogContainer.empty.query_by_user "u" none none).filter
          (fun e => decide (e.outcome = "failure"))).map AuditEvent.to_dict) :=
  ⟨ContainerWF_empty,
    (query_engine_indexed_equals_fullscan AuditLogContainer.empty
      ContainerWF_empty).1 "u"⟩

/-! ## Claim C6 -/

theorem flatten_take_pages {α : Type*} (l : List α) (L : ℕ) :
    ∀ kk : ℕ, ((List.range kk).map (fun i => (l.drop (i * L)).take L)).flatten
      = l.take (kk * L) := by
  intro kk
  induction kk with
  | zero => simp
  | succ kk ih =>
    rw [List.range_succ, List.map_append, List.flatten_append, ih]
    simp only [List.map_cons, List.map_nil, List.flatten_cons, List.flatten_nil,
      List.append_nil]
    rw [show (kk + 1) * L = kk * L + L from by ring, List.take_add]

/-- Claim C6: for a positive limit `L`, `query_audit_logs` computes `total`
over the fully filtered set before slicing, returns the slice
`[offset, offset + L)` of the sorted set, reports
`has_more = offset + len(page) < total`, and concatenating the successive
pages `offset = 0, L, 2L, …` reconstructs the full filtered sorted set
with no duplicates and no omissions. -/
theorem pagination_spec (c : AuditLogContainer) (f : Filters) (L off : ℕ)
    (hL : 0 < L) :
    (query_audit_logs c f (some L) off).total = (auditQueryList c f).length ∧
    (query_audit_logs c f (some L) off).events
      = (((auditQueryList c f).drop off).take L).map AuditEvent.to_dict ∧
    (query_audit_logs c f (some L) off).has_more
      = decide (off + (((auditQueryList c f).drop off).take L).length
          < (auditQueryList c f).length) ∧
    ∀ kk : ℕ, (auditQueryList c f).length ≤ kk * L →
      ((List.range kk).map
          (fun i => (query_audit_logs c f (some L) (i * L)).events)).flatten
        = (auditQueryList c f).map AuditEvent.to_dict := by
  have hne : ¬ L = 0 := by omega
  have hpage : ∀ o : ℕ,
      ((auditQueryList c f).take
          (match some L with
           | some l => if l = 0 then (auditQueryList c f).length else o + l
           | none => (auditQueryList c f).length)).drop o
        = ((auditQueryList c f).drop o).take L := by
    intro o
    show ((auditQueryList c f).take (if L = 0 then _ else o + L)).drop o = _
    rw [if_neg hne, List.drop_take, show o + L - o = L from by omega]
  refine ⟨rfl, ?_, ?_, ?_⟩
  · show (((auditQueryList c f).take _).drop off).map AuditEvent.to_dict = _
    rw [hpage off]
  · show decide (off + (((auditQueryList c f).take _).drop off).length
        < (auditQueryList c f).length) = _
    rw [hpage off]
  · intro kk hk
    have hev : ∀ i : ℕ, (query_audit_logs c f (some L) (i * L)).events
        = (((auditQueryList c f).drop (i * L)).take L).map AuditEvent.to_dict := by
      intro i
      show (((auditQueryList c f).take _).drop (i * L)).map AuditEvent.to_dict = _
      rw [hpage (i * L)]
    calc ((List.range kk).map
            (fun i => (query_audit_logs c f (some L) (i * L)).events)).flatten
        = ((List.range kk).map (fun i =>
            (((auditQueryList c f).drop (i * L)).take L).map
              AuditEvent.to_dict)).flatten := by
          refine congrArg List.flatten (List.map_congr_left ?_)
          intro i _
          exact hev i
      _ = (((List.range kk).map
            (fun i => ((auditQueryList c f).drop (i * L)).take L)).map
              (List.map AuditEvent.to_dict)).flatten := by
          rw [List.map_map]
          rfl
      _ = (((List.range kk).map
            (fun i => ((auditQueryList c f).drop (i * L)).take L)).flatten).map
              AuditEvent.to_dict := (List.map_flatten ..).symm
      _ = ((auditQueryList c f).take (kk * L)).map AuditEvent.to_dict := by
          rw [flatten_take_pages]
      _ = (auditQueryList c f).map AuditEvent.to_dict := by
          rw [List.take_of_length_le hk]

/-- Witness for C6: the pagination contract instantiated at the empty
container with page size `1` and offset `0`. -/
theorem pagination_spec_witness :
    (0 : ℕ) < 1 ∧
    (query_audit_logs AuditLogContainer.empty Filters.noFilters (some 1) 0).total
      = (auditQueryList AuditLogContainer.empty Filters.noFilters).length :=
  ⟨Nat.one_pos,
    (pagination_spec AuditLogContainer.empty Filters.noFilters 1 0 Nat.one_pos).1⟩

/-! ## Claim C9 (corrected) -/

/-- Claim C9 as amended: `get_audit_stats` draws the success and failure
totals from the two outcome buckets and reports
`success_rate = round(success / (success + failure) * 100, 2)` — the exact
quotient **rounded to two decimals** — reporting `0` when no events with
an outcome exist; in particular a failure-only population reports a rate
of exactly `0`. -/
theorem audit_stats_success_rate_spec (c : AuditLogContainer) :
    ((get_audit_stats c).success_events
        = (c.query_by_outcome "success" none none).length ∧
     (get_audit_stats c).failure_events
        = (c.query_by_outcome "failure" none none).length ∧
     (get_audit_stats c).success_rate
        = pyRound2 (if 0 < (c.query_by_outcome "success" none none).length
              + (c.query_by_outcome "failure" none none).length then
            (((c.query_by_outcome "success" none none).length : ℚ))
              / ((((c.query_by_outcome "success" none none).length
                  + (c.query_by_outcome "failure" none none).length : ℕ)) : ℚ)
              * 100
          else 0)) ∧
    (ContainerWF c → (∀ p ∈ c.events, p.2.outcome = "failure") →
      (get_audit_stats c).success_rate = 0) := by
  have hzero : pyRound2 0 = 0 := by
    rw [pyRound2, roundHalfEven]
    norm_num
  refine ⟨⟨rfl, rfl, rfl⟩, ?_⟩
  intro hwf hall
  have hsucc : c.query_by_outcome "success" none none = [] := by
    rw [AuditLogContainer.query_by_outcome, queryIdx,
      WFIdx_lookup hwf.2.2.2.2, if_pos]
    rw [bucketOf_eq_nil_iff]
    intro p hp
    rw [hall p hp]
    decide
  show pyRound2 _ = 0
  rw [hsucc]
  simp only [List.length_nil, Nat.zero_add, Nat.cast_zero]
  rcases Nat.eq_zero_or_pos (c.query_by_outcome "failure" none none).length
    with hf | hf
  · rw [hf, if_neg (by omega)]
    exact hzero
  · rw [if_pos (by omega), zero_div, zero_mul]
    exact hzero

/-- Witness for the amended C9: a failure-only population (the claim's own
scenario) reports a success rate of exactly `0`. -/
theorem audit_stats_success_rate_spec_witness :
    ContainerWF AuditLogContainer.empty ∧
    (get_audit_stats AuditLogContainer.empty).success_rate = 0 :=
  ⟨ContainerWF_empty,
    (audit_stats_success_rate_spec AuditLogContainer.empty).2 ContainerWF_empty
      (by intro p hp; simp [AuditLogContainer.empty] at hp)⟩

theorem statsContainer_events :
    statsContainer.events
      = [(1, sampleSuccess), (2, statsFailure1), (3, statsFailure2)] := by
  show alInsert _ _ _ = _
  norm_num [statsContainer, add_event_events, findFreeKey, findFreeKeyGo,
    keysOf, AuditLogContainer.empty, alInsert, sampleSuccess, statsFailure1,
    statsFailure2]

theorem statsContainer_wf : ContainerWF statsContainer := by
  have h1 : isMicro ((1 : ℚ)) := by rw [isMicro]; norm_num
  have h2 : isMicro ((2 : ℚ)) := by rw [isMicro]; norm_num
  have h3 : isMicro ((3 : ℚ)) := by rw [isMicro]; norm_num
  exact ContainerWF_add (ContainerWF_add (ContainerWF_add ContainerWF_empty h1)
    h2) h3

/-- Counterexample to claim C9 as stated: with one success and two failure
events stored, the code reports `round(100 / 3, 2) = 33.33`, which is not
`success / (success + failure) * 100 = 100 / 3` — the reported rate is the
rounded quotient, not the exact one. -/
theorem audit_stats_rounding_counterexample :
    (get_audit_stats statsContainer).success_events = 1 ∧
    (get_audit_stats statsContainer).failure_events = 2 ∧
    (get_audit_stats statsContainer).success_rate = 3333 / 100 ∧
    (get_audit_stats statsContainer).success_rate
      ≠ ((1 : ℚ)) / (1 + 2) * 100 := by
  have hsucc : statsContainer.query_by_outcome "success" none none
      = [sampleSuccess] := by
    rw [AuditLogContainer.query_by_outcome,
      queryIdx_eq statsContainer_wf.1 statsContainer_wf.2.1
        statsContainer_wf.2.2.2.2 (show optMicro none from trivial)
        (show optMicro none from trivial), statsContainer_events]
    decide
  have hfail : statsContainer.query_by_outcome "failure" none none
      = [statsFailure1, statsFailure2] := by
    rw [AuditLogContainer.query_by_outcome,
      queryIdx_eq statsContainer_wf.1 statsContainer_wf.2.1
        statsContainer_wf.2.2.2.2 (show optMicro none from trivial)
        (show optMicro none from trivial), statsContainer_events]
    decide
  have hfloor : ⌊(10000 : ℚ) / 3⌋ = 3333 := by
    rw [Int.floor_eq_iff]
    constructor <;> norm_num
  have hrate : (get_audit_stats statsContainer).success_rate = 3333 / 100 := by
    show pyRound2 (if 0 < (statsContainer.query_by_outcome "success"
          none none).length
        + (statsContainer.query_by_outcome "failure" none none).length then
        (((statsContainer.query_by_outcome "success" none none).length : ℚ))
          / ((((statsContainer.query_by_outcome "success" none none).length
              + (statsContainer.query_by_outcome "failure" none none).length
              : ℕ)) : ℚ) * 100
      else 0) = 3333 / 100
    rw [hsucc, hfail]
    have harg : (if 0 < [sampleSuccess].length
          + [statsFailure1, statsFailure2].length then
        ((([sampleSuccess].length : ℕ)) : ℚ)
          / (((([sampleSuccess].length + [statsFailure1,
              statsFailure2].length : ℕ)) : ℚ)) * 100
      else 0) = ((100 : ℚ)) / 3 := by
      norm_num
    rw [harg, pyRound2]
    have harg2 : ((100 : ℚ)) / 3 * 100 = 10000 / 3 := by norm_num
    rw [harg2, roundHalfEven]
    simp only [hfloor]
    norm_num
  refine ⟨?_, ?_, hrate, ?_⟩
  · show (statsContainer.query_by_outcome "success" none none).length = 1
    rw [hsucc]
    rfl
  · show (statsContainer.query_by_outcome "failure" none none).length = 2
    rw [hfail]
    rfl
  · rw [hrate]
    norm_num

/-! ## Claim C4 (corrected) -/

theorem collisionContainer_events :
    collisionContainer.events
      = [(1, sampleSuccess), (1 + 1 / 1000000, sampleFailure)] := by
  show alInsert _ _ _ = _
  norm_num [collisionContainer, add_event_events, findFreeKey, findFreeKeyGo,
    keysOf, AuditLogContainer.empty, alInsert, sampleSuccess, sampleFailure]

/-- Counterexample to claim C4 as stated: two events share the wall-clock
instant `1`, so the second is stored under the bumped key `1.000001`.
Cleaning at cutoff `1.000001` removes only the first: the second event
survives although its *timestamp* `1` is strictly below the cutoff — the
deletion criterion is the (possibly bumped) primary key, not the
timestamp. -/
theorem cleanup_cutoff_counterexample :
    sampleFailure.timestamp < 1 + 1 / 1000000 ∧
    ((collisionContainer.cleanup_old_events (1 + 1 / 1000000) 7).1.events.map
        (fun p => p.2.event_id)) = ["e2"] ∧
    (collisionContainer.cleanup_old_events (1 + 1 / 1000000) 7).2 = 1 := by
  have hnd : (keysOf collisionContainer.events).Nodup := by
    rw [collisionContainer_events, keysOf]
    norm_num
  have hev' : (collisionContainer.cleanup_old_events (1 + 1 / 1000000) 7).1.events
      = [(1 + 1 / 1000000, sampleFailure)] := by
    rw [cleanup_events _ _ _ hnd, collisionContainer_events]
    norm_num [List.filter_cons]
  refine ⟨by norm_num [sampleFailure], ?_, ?_⟩
  · rw [hev']
    rfl
  · rw [cleanup_count, collisionContainer_events]
    norm_num [List.filter_cons]

/-- Claim C4 as amended: `cleanup_old_events(cutoff)` removes exactly the
events whose **primary key** is below the cutoff — the primary key equals
the event's timestamp except for collision-bumped events, whose key may
reach the cutoff even though their timestamp is below it — removes each
removed event's matching entry from each of the three secondary indexes,
deletes every bucket left empty (leaving no empty bucket and no dangling
entry, and keeping every remaining event indexed), decrements
`total_events` by the number deleted, sets `last_cleaned`, and returns the
count deleted. -/
theorem cleanup_old_events_spec (c : AuditLogContainer) (b n : ℚ)
    (hwf : ContainerWF c) :
    (c.cleanup_old_events b n).1.events
      = c.events.filter (fun p => ! decide (p.1 < b)) ∧
    (c.cleanup_old_events b n).2
      = (c.events.filter (fun p => decide (p.1 < b))).length ∧
    (c.cleanup_old_events b n).1.total_events
      = c.total_events - (c.cleanup_old_events b n).2 ∧
    (c.cleanup_old_events b n).1.last_cleaned = some n ∧
    IdxConsistent (c.cleanup_old_events b n).1.by_user
      (c.cleanup_old_events b n).1.events (fun e => e.user_id) ∧
    IdxConsistent (c.cleanup_old_events b n).1.by_action
      (c.cleanup_old_events b n).1.events (fun e => e.action_type) ∧
    IdxConsistent (c.cleanup_old_events b n).1.by_outcome
      (c.cleanup_old_events b n).1.events (fun e => e.outcome) := by
  have hwf' := ContainerWF_cleanup hwf b n
  refine ⟨cleanup_events c b n (alSorted_nodupKeys hwf.1), rfl, rfl, rfl,
    ?_, ?_, ?_⟩
  · exact WFIdx.consistent hwf'.2.2.1
  · exact WFIdx.consistent hwf'.2.2.2.1
  · exact WFIdx.consistent hwf'.2.2.2.2

/-- Witness for the amended C4: cleaning the three-event container at
cutoff `3` removes exactly the two entries with keys below `3`. -/
theorem cleanup_old_events_spec_witness :
    ContainerWF statsContainer ∧
    (statsContainer.cleanup_old_events 3 7).2
      = (statsContainer.events.filter (fun p => decide (p.1 < 3))).length ∧
    (statsContainer.cleanup_old_events 3 7).2 = 2 :=
  ⟨statsContainer_wf,
    (cleanup_old_events_spec statsContainer 3 7 statsContainer_wf).2.1,
    by rw [cleanup_count, statsContainer_events]; norm_num [List.filter_cons]⟩
